import Mathlib

/-!
# Bucket-occupancy simulation (`bench/hash_probe.go`)

A shallow embedding of the Go functions `hash` and `main` of `bench/hash_probe.go`.

* Go's `int` is taken to be 64 bits wide (the `amd64`/`arm64` targets): every arithmetic
  operation on an `int` is followed by `wrap`, two's-complement reduction into
  `[-2^63, 2^63)`.
* Go's `/` on `int` truncates toward zero and panics on a zero divisor: `goDiv`.
* Slices of `int` are lists of `Int`; an index expression panics when the index is
  negative or not below the length: `index`, `incr`.
* `rand.Intn(asize)` is an oracle `rnd : Nat → Int`; `rnd i` is the value returned by the
  `i`-th call (counted from 0). The library guarantees `0 ≤ rnd i < asize`.
* `fmt.Println` output is recorded as data: one `Header` and a list of `Row`s.
-/

namespace HashProbe

/-- Run-time panics that `hash` can raise. -/
inductive Panic where
  /-- Go: `runtime error: integer divide by zero`. -/
  | divideByZero
  /-- Go: `runtime error: makeslice: len out of range`. -/
  | makeLen (n : Int)
  /-- Go: `runtime error: index out of range [idx] with length len`. -/
  | indexOutOfRange (idx : Int) (len : Nat)
  deriving DecidableEq, Repr

/-- How a call of `hash` ends. -/
inductive Outcome where
  /-- The print loop left through `break`: `sum == len(arr)`. -/
  | covered
  /-- The print loop ran until `i < 1000` failed. -/
  | limit
  /-- The call was aborted by a run-time panic. -/
  | panic (p : Panic)
  deriving DecidableEq, Repr

/-- The line printed by `fmt.Println("size = ", asize, "seg = ", seg, "load = ", ...)`. -/
structure Header where
  size : Int
  seg : Int
  load : Int
  deriving DecidableEq, Repr

/-- One line printed by the print loop:
`fmt.Println(i, sarr[i], sarr[i] * 1000 / len(arr), "/1000", (1000.0 * sum) / len(arr))`. -/
structure Row where
  i : Int
  count : Int
  rate : Int
  cum : Int
  deriving DecidableEq, Repr

/-- Everything observable about one call of `hash`. -/
structure Run where
  /-- The header line (printed before anything that can panic). -/
  header : Header
  /-- Number of calls of `rand.Intn` that were made. -/
  drawn : Nat
  /-- The slice `arr` after the draw loop, when that loop completed. -/
  arr : Option (List Int)
  /-- The slice `sarr` after the histogram loop, when that loop completed. -/
  sarr : Option (List Int)
  /-- The rows printed by the print loop, in order. -/
  rows : List Row
  /-- How the call ended. -/
  outcome : Outcome
  deriving DecidableEq, Repr

/-- Two's-complement reduction of an integer into the range of a 64-bit Go `int`. -/
def wrap (x : Int) : Int := (x + 2 ^ 63) % 2 ^ 64 - 2 ^ 63

/-- Go's `x / y` on `int`: panics when `y = 0`, otherwise truncates toward zero. -/
def goDiv (x y : Int) : Except Panic Int :=
  if y = 0 then .error .divideByZero else .ok (wrap (Int.tdiv x y))

/-- Go's `make([]int, n)`: a zeroed slice of length `n`, a panic when `n` is negative.
In `hash` the length never exceeds `asize = 2^21` (`allocArr_ok` below), so the allocation
itself succeeds. -/
def make (n : Int) : Except Panic (List Int) :=
  if n < 0 then .error (.makeLen n) else .ok (List.replicate n.toNat 0)

/-- Go's index expression `a[i]` read as a value. -/
def index (a : List Int) (i : Int) : Except Panic Int :=
  if 0 ≤ i ∧ i < a.length then .ok (a.getD i.toNat 0)
  else .error (.indexOutOfRange i a.length)

/-- Go's statement `a[i] += 1`. -/
def incr (a : List Int) (i : Int) : Except Panic (List Int) :=
  if 0 ≤ i ∧ i < a.length then .ok (a.set i.toNat (wrap (a.getD i.toNat 0 + 1)))
  else .error (.indexOutOfRange i a.length)

/-- The draw loop `for i := 0; i < dsize; i++ { arr[rand.Intn(asize) / seg] += 1 }`.
`drawLoop seg rnd n i arr` runs the `n` iterations that remain when the loop counter is `i`.
It returns the number of calls of `rand.Intn` made so far together with the final slice,
or the panic that aborted the loop. -/
def drawLoop (seg : Int) (rnd : Nat → Int) : Nat → Nat → List Int → Nat × Except Panic (List Int)
  | 0, i, arr => (i, .ok arr)
  | n + 1, i, arr =>
    match goDiv (rnd i) seg with
    | .error p => (i + 1, .error p)
    | .ok k =>
      match incr arr k with
      | .error p => (i + 1, .error p)
      | .ok arr1 => drawLoop seg rnd n (i + 1) arr1

/-- The histogram loop `for i := 0; i < len(arr); i++ { sarr[arr[i]] += 1 }`, by recursion
on the entries `arr[i], arr[i+1], ...` that remain to be visited. -/
def histLoop : List Int → List Int → Except Panic (List Int)
  | [], sarr => .ok sarr
  | a :: rest, sarr =>
    match incr sarr a with
    | .error p => .error p
    | .ok sarr1 => histLoop rest sarr1

/-- The print loop
```
for i := 0; i < 1000; i++ {
    sum += sarr[i]
    fmt.Println(i, sarr[i], sarr[i] * 1000 / len(arr), "/1000", (1000.0 * sum) / len(arr))
    if sum == len(arr) { break }
}
```
`printLoop sarr len n i sum` runs from loop counter `i` with `n = 1000 - i` iterations left.
It returns the rows printed from there on and how the loop ended. -/
def printLoop (sarr : List Int) (len : Int) : Nat → Nat → Int → List Row × Outcome
  | 0, _, _ => ([], .limit)
  | n + 1, i, sum =>
    match index sarr i with
    | .error p => ([], .panic p)
    | .ok c =>
      let sum1 := wrap (sum + c)
      match goDiv (wrap (c * 1000)) len with
      | .error p => ([], .panic p)
      | .ok rate =>
        match goDiv (wrap (1000 * sum1)) len with
        | .error p => ([], .panic p)
        | .ok cum =>
          if sum1 = len then ([⟨i, c, rate, cum⟩], .covered)
          else
            let r := printLoop sarr len n (i + 1) sum1
            (⟨i, c, rate, cum⟩ :: r.1, r.2)

/-- The value of `var dsize = asize * factor / 100`. -/
def dsize (asize factor : Int) : Int := wrap (Int.tdiv (wrap (asize * factor)) 100)

/-- The value of `100 * dsize / asize` printed in the header (`asize` is a non-zero constant). -/
def load (asize factor : Int) : Int := wrap (Int.tdiv (wrap (100 * dsize asize factor)) asize)

/-- The statement `var arr = make([]int, (asize + seg - 1) / seg)`. -/
def allocArr (asize seg : Int) : Except Panic (List Int) :=
  match goDiv (wrap (wrap (asize + seg) - 1)) seg with
  | .error p => .error p
  | .ok n => make n

/-- The statements `var sarr = make([]int, len(arr))` and the histogram loop after it. -/
def buildHist (arr : List Int) : Except Panic (List Int) :=
  match make arr.length with
  | .error p => .error p
  | .ok sarr0 => histLoop arr sarr0

/-- The body of `hash(seg, factor)` with the constant `asize` taken as a parameter
(`hash` below fixes it to `1 << 21`, as the source does), so that the small scenarios of the
specification can be run as well. It is meant for `0 < asize ≤ 2^21`: `rand.Intn` rejects
a non-positive argument, and the slices stay as small as in the source. -/
def hashAt (asize seg factor : Int) (rnd : Nat → Int) : Run :=
  let hdr : Header := ⟨asize, seg, load asize factor⟩
  match allocArr asize seg with
  | .error p => ⟨hdr, 0, none, none, [], .panic p⟩
  | .ok arr0 =>
    match drawLoop seg rnd (dsize asize factor).toNat 0 arr0 with
    | (k, .error p) => ⟨hdr, k, none, none, [], .panic p⟩
    | (k, .ok arr) =>
      match buildHist arr with
      | .error p => ⟨hdr, k, some arr, none, [], .panic p⟩
      | .ok sarr =>
        let r := printLoop sarr arr.length 1000 0 0
        ⟨hdr, k, some arr, some sarr, r.1, r.2⟩

/-- The constant `asize = 1 << 21` of `hash`. -/
def asize : Int := 1 <<< 21

/-- The Go function `hash(seg, factor int)` under the random source `rnd`. -/
def hash (seg factor : Int) (rnd : Nat → Int) : Run := hashAt asize seg factor rnd

/-- Whether a call of `hash` was aborted by a run-time panic. `main` has no `recover`, so
such a call aborts the whole process. -/
def panicked (r : Run) : Bool :=
  match r.outcome with
  | .panic _ => true
  | _ => false

/-- The loop `for i := 16; i > 0; i /= 2 { hash(i, 90) }` of `main`, from loop counter `i`
on, when `k` calls of `hash` have been made before. The `k`-th call of `hash` (counted from
0) draws from the random source `rnd k`: every call reseeds the generator. The result lists
the calls made, each with its arguments `(seg, factor)` and its run, and tells whether the
loop ran to its end (`true`) or was aborted by a call that panicked (`false`). `fuel` bounds
the number of evaluations of the loop condition; `none` means it ran out. -/
def sweepA (rnd : Nat → Nat → Int) :
    Nat → Int → Nat → Option (List (Int × Int × Run) × Bool)
  | 0, _, _ => none
  | fuel + 1, i, k =>
    if i > 0 then
      if panicked (hash i 90 (rnd k)) then some ([(i, 90, hash i 90 (rnd k))], false)
      else (sweepA rnd fuel (wrap (Int.tdiv i 2)) (k + 1)).map
        (fun res => ((i, 90, hash i 90 (rnd k)) :: res.1, res.2))
    else some ([], true)

/-- The loop `for f := 90; f > 30; f -= 10 { hash(16, f) }` of `main`, from loop counter
`f` on, in the same way. -/
def sweepB (rnd : Nat → Nat → Int) :
    Nat → Int → Nat → Option (List (Int × Int × Run) × Bool)
  | 0, _, _ => none
  | fuel + 1, f, k =>
    if f > 30 then
      if panicked (hash 16 f (rnd k)) then some ([(16, f, hash 16 f (rnd k))], false)
      else (sweepB rnd fuel (wrap (f - 10)) (k + 1)).map
        (fun res => ((16, f, hash 16 f (rnd k)) :: res.1, res.2))
    else some ([], true)

/-- The Go function `main`: the first loop and, unless a call panicked, the second. The
result lists the calls of `hash` made, in order, and tells whether `main` returned (`true`)
or the process was aborted by a panic (`false`). -/
def main (rnd : Nat → Nat → Int) (fuel : Nat) : Option (List (Int × Int × Run) × Bool) :=
  match sweepA rnd fuel 16 0 with
  | none => none
  | some (a, false) => some (a, false)
  | some (a, true) =>
    match sweepB rnd fuel 90 a.length with
    | none => none
    | some (b, done) => some (a ++ b, done)

/-! ## Specification-side notions -/

/-- Number of the first `n` draws that land in segment `k`, i.e. with `draw / seg = k`
(Go's truncating division). -/
def hits (seg : Int) (rnd : Nat → Int) (n : Nat) (k : Int) : Nat :=
  (List.range n).countP (fun j => decide (Int.tdiv (rnd j) seg = k))

/-- The mock random source of the round-robin scenario: the draws cycle through
`0, 1, ..., size - 1`. -/
def roundRobin (size : Nat) : Nat → Int := fun i => ((i % size : Nat) : Int)

/-- The mock random source of the determinism scenario: the draws `0, 0, 1, 3`
(and `0` from then on). -/
def fixedDraws : Nat → Int := fun i => [0, 0, 1, 3].getD i 0

/-- The random sources of the adversarial scenario: every draw of every call is `0`. -/
def allZero : Nat → Nat → Int := fun _ _ => 0

/-- The arguments `(seg, factor)` of a list of calls. -/
def callArgs (runs : List (Int × Int × Run)) : List (Int × Int) :=
  runs.map (fun c => (c.1, c.2.1))

/-- The eleven calls of the two sweeps, as pairs `(seg, factor)`. -/
def expectedCalls : List (Int × Int) :=
  [(16, 90), (8, 90), (4, 90), (2, 90), (1, 90),
    (16, 90), (16, 80), (16, 70), (16, 60), (16, 50), (16, 40)]

/-- What a loop of `main`, or `main` itself, does when `k` calls were made before and the
loop is to make the calls `exp`: it terminates within its fuel; the calls it made are an
initial part of `exp`, all of `exp` when it was not aborted; and the `j`-th of them is the
run of `hash` on its arguments under the random source `rnd (k + j)`. -/
def Issues (rnd : Nat → Nat → Int) (k : Nat) (exp : List (Int × Int))
    (res : Option (List (Int × Int × Run) × Bool)) : Prop :=
  ∃ runs done, res = some (runs, done) ∧ callArgs runs <+: exp ∧
    (done = true → callArgs runs = exp) ∧
    ∀ (j : Nat) (c : Int × Int × Run), runs[j]? = some c →
      c.2.2 = hash c.1 c.2.1 (rnd (k + j))

/-- The largest entry of an occupancy table (`0` for the empty table). -/
def maxOcc (arr : List Int) : Int := arr.foldr max 0

/-- The occupancy-weighted sum of a histogram: the sum over its indices `i` of
`i * histogram[i]`. -/
def weighted (sarr : List Int) : Int :=
  ((List.range sarr.length).map (fun (i : Nat) => (i : Int) * sarr.getD i 0)).sum

/-- The row the print loop emits for occupancy value `i`, computed from the histogram with
exact (unbounded) integer arithmetic: the count, its per-mille share of `len` segments and
the per-mille share of the cumulative count. -/
def rowAt (sarr : List Int) (len : Int) (i : Nat) : Row :=
  ⟨i, sarr.getD i 0, sarr.getD i 0 * 1000 / len, 1000 * (sarr.take (i + 1)).sum / len⟩

/-! ## Machine arithmetic -/

theorem wrap_eq {x : Int} (h1 : -2 ^ 63 ≤ x) (h2 : x < 2 ^ 63) : wrap x = x := by
  unfold wrap; omega

theorem wrap_bounds (x : Int) : -2 ^ 63 ≤ wrap x ∧ wrap x < 2 ^ 63 := by
  unfold wrap; omega

theorem tdiv_bounds {a : Int} (b : Int) (ha : 0 ≤ a) : -a ≤ Int.tdiv a b ∧ Int.tdiv a b ≤ a := by
  rcases le_total 0 b with hb | hb
  · rw [Int.tdiv_eq_ediv ha hb]
    exact ⟨by have := Int.ediv_nonneg ha hb; omega, Int.ediv_le_self b ha⟩
  · have hb2 : 0 ≤ -b := by omega
    have e : Int.tdiv a b = -(a / (-b)) := by
      rw [← Int.tdiv_eq_ediv ha hb2, Int.tdiv_neg, neg_neg]
    rw [e]
    have h1 := Int.ediv_nonneg ha hb2
    have h2 := Int.ediv_le_self (-b) ha
    omega

theorem goDiv_ok {x y n : Int} (h : goDiv x y = .ok n) : y ≠ 0 ∧ n = wrap (Int.tdiv x y) := by
  unfold goDiv at h
  split at h
  · cases h
  · rename_i hy
    injection h with h
    exact ⟨hy, h.symm⟩

theorem incr_ok {a a1 : List Int} {i : Int} (h : incr a i = .ok a1) :
    0 ≤ i ∧ i < a.length ∧ a1 = a.set i.toNat (wrap (a.getD i.toNat 0 + 1)) := by
  unfold incr at h
  split at h
  · rename_i hi
    injection h with h
    exact ⟨hi.1, hi.2, h.symm⟩
  · cases h

theorem incr_of_lt {a : List Int} {i : Int} (h0 : 0 ≤ i) (h1 : i < a.length) :
    incr a i = .ok (a.set i.toNat (wrap (a.getD i.toNat 0 + 1))) := by
  unfold incr
  rw [if_pos ⟨h0, h1⟩]

theorem incr_of_ge {a : List Int} {i : Int} (h : (a.length : Int) ≤ i) :
    incr a i = .error (.indexOutOfRange i a.length) := by
  unfold incr
  rw [if_neg (by omega)]

/-! ## Lists as slices -/

theorem getD_set_eq (l : List Int) (k j : Nat) (v : Int) (hk : k < l.length) :
    (l.set k v).getD j 0 = if j = k then v else l.getD j 0 := by
  simp only [List.getD_eq_getElem?_getD, List.getElem?_set]
  by_cases h : k = j
  · subst h; simp [hk]
  · have h2 : ¬ j = k := fun e => h e.symm
    simp [h, h2]

theorem sum_set_succ (l : List Int) (k : Nat) (hk : k < l.length) :
    (l.set k (l.getD k 0 + 1)).sum = l.sum + 1 := by
  induction l generalizing k with
  | nil => simp at hk
  | cons x l ih =>
    cases k with
    | zero => simp; ring
    | succ k =>
      have hk2 : k < l.length := by simpa using hk
      have := ih k hk2
      simp only [List.set_cons_succ, List.sum_cons, List.getD_cons_succ] at this ⊢
      omega

theorem hits_succ (seg : Int) (rnd : Nat → Int) (n : Nat) (k : Int) :
    hits seg rnd (n + 1) k = hits seg rnd n k + if Int.tdiv (rnd n) seg = k then 1 else 0 := by
  unfold hits
  rw [List.range_succ, List.countP_append]
  simp [List.countP_cons]

theorem hits_le (seg : Int) (rnd : Nat → Int) (n : Nat) (k : Int) : hits seg rnd n k ≤ n := by
  unfold hits
  have := List.countP_le_length (fun j => decide (Int.tdiv (rnd j) seg = k)) (l := List.range n)
  simpa using this

/-! ## The draw loop -/

/-- The draw loop never changes the length of the table and, when it completes, has made
exactly `n` further draws. Loop invariant at counter `i`: entry `k` is the number of the first
`i` draws that landed in segment `k`, and the entries add up to `i`. -/
theorem drawLoop_ok (seg : Int) (rnd : Nat → Int) (hr : ∀ j, 0 ≤ rnd j ∧ rnd j < 2 ^ 63) :
    ∀ (n i : Nat) (arr arr' : List Int) (d : Nat), (i : Int) + n < 2 ^ 63 →
      (∀ k : Nat, k < arr.length → arr.getD k 0 = hits seg rnd i k) → arr.sum = i →
      drawLoop seg rnd n i arr = (d, .ok arr') →
      d = i + n ∧ arr'.length = arr.length ∧
        (∀ k : Nat, k < arr.length → arr'.getD k 0 = hits seg rnd (i + n) k) ∧
        arr'.sum = ((i + n : Nat) : Int) := by
  intro n
  induction n with
  | zero =>
    intro i arr arr' d _ h1 h2 h
    simp only [drawLoop, Prod.mk.injEq, Except.ok.injEq] at h
    obtain ⟨rfl, rfl⟩ := h
    exact ⟨rfl, rfl, h1, by simpa using h2⟩
  | succ n ih =>
    intro i arr arr' d hb h1 h2 h
    unfold drawLoop at h
    split at h
    · simp at h
    · rename_i k0 hk0
      obtain ⟨_, hk⟩ := goDiv_ok hk0
      have hw : wrap (Int.tdiv (rnd i) seg) = Int.tdiv (rnd i) seg := by
        have := tdiv_bounds seg (hr i).1
        have := (hr i).2
        exact wrap_eq (by omega) (by omega)
      rw [hw] at hk
      split at h
      · simp at h
      · rename_i arr1 harr1
        obtain ⟨hk1, hk2, e1⟩ := incr_ok harr1
        have hlt : k0.toNat < arr.length := by omega
        have hcur : arr.getD k0.toNat 0 = hits seg rnd i k0 := by
          rw [h1 _ hlt, Int.toNat_of_nonneg hk1]
        have hle := hits_le seg rnd i k0
        have hw2 : wrap (arr.getD k0.toNat 0 + 1) = arr.getD k0.toNat 0 + 1 := by
          apply wrap_eq <;> omega
        rw [hw2] at e1
        have hlen : arr1.length = arr.length := by rw [e1, List.length_set]
        have hinv : ∀ k : Nat, k < arr1.length → arr1.getD k 0 = hits seg rnd (i + 1) k := by
          intro k hk'
          rw [hlen] at hk'
          rw [e1, getD_set_eq _ _ _ _ hlt, hits_succ, ← hk]
          by_cases hkk : k = k0.toNat
          · have : k0 = (k : Int) := by omega
            rw [if_pos hkk, if_pos this, hcur, this]
            push_cast; rfl
          · have : ¬ k0 = (k : Int) := by omega
            rw [if_neg hkk, if_neg this, h1 k hk']
            simp
        have hsum : arr1.sum = ((i + 1 : Nat) : Int) := by
          rw [e1, sum_set_succ _ _ hlt, h2]; push_cast; rfl
        obtain ⟨r1, r2, r3, r4⟩ := ih (i + 1) arr1 arr' d (by push_cast; omega) hinv hsum h
        refine ⟨by omega, by rw [r2, hlen], ?_, ?_⟩
        · intro k hk'
          have := r3 k (by rw [hlen]; exact hk')
          rw [this]; congr 2; omega
        · rw [r4]; congr 1; omega

/-- The draw loop runs to completion when every draw lands inside the table. -/
theorem drawLoop_total (seg : Int) (rnd : Nat → Int) (hseg : seg ≠ 0) (len : Nat)
    (hr : ∀ j, 0 ≤ wrap (Int.tdiv (rnd j) seg) ∧ wrap (Int.tdiv (rnd j) seg) < len) :
    ∀ (n i : Nat) (arr : List Int), arr.length = len →
      ∃ arr', drawLoop seg rnd n i arr = (i + n, .ok arr') := by
  intro n
  induction n with
  | zero => intro i arr _; exact ⟨arr, rfl⟩
  | succ n ih =>
    intro i arr hlen
    have h1 : goDiv (rnd i) seg = .ok (wrap (Int.tdiv (rnd i) seg)) := by
      unfold goDiv; rw [if_neg hseg]
    have h2 := incr_of_lt (a := arr) (hr i).1 (by rw [hlen]; exact (hr i).2)
    obtain ⟨arr', h⟩ := ih (i + 1)
      (arr.set (wrap (Int.tdiv (rnd i) seg)).toNat
        (wrap (arr.getD (wrap (Int.tdiv (rnd i) seg)).toNat 0 + 1)))
      (by rw [List.length_set]; exact hlen)
    refine ⟨arr', ?_⟩
    unfold drawLoop
    simp only [h1, h2]
    rw [h]; congr 1; omega

/-! ## The histogram loop -/

theorem getD_replicate_zero (n j : Nat) : (List.replicate n (0 : Int)).getD j 0 = 0 := by
  simp only [List.getD_eq_getElem?_getD, List.getElem?_replicate]
  split <;> rfl

theorem make_length (arr : List Int) : make arr.length = .ok (List.replicate arr.length 0) := by
  unfold make
  rw [if_neg (by omega)]
  simp

/-- Effect of the histogram loop when it completes: every visited entry was a valid index,
and entry `j` of the histogram grew by the number of visited entries equal to `j`. -/
theorem histLoop_ok :
    ∀ (rest sarr sarr' : List Int),
      (∀ j : Nat, j < sarr.length → 0 ≤ sarr.getD j 0 ∧ sarr.getD j 0 + rest.length < 2 ^ 63) →
      histLoop rest sarr = .ok sarr' →
      sarr'.length = sarr.length ∧
        (∀ j : Nat, j < sarr.length → sarr'.getD j 0 = sarr.getD j 0 + rest.count (j : Int)) ∧
        sarr'.sum = sarr.sum + rest.length ∧
        (∀ a ∈ rest, 0 ≤ a ∧ a < sarr.length) := by
  intro rest
  induction rest with
  | nil =>
    intro sarr sarr' _ h
    simp only [histLoop, Except.ok.injEq] at h
    subst h
    simp
  | cons a rest ih =>
    intro sarr sarr' hb h
    unfold histLoop at h
    split at h
    · cases h
    · rename_i sarr1 h1
      obtain ⟨ha0, ha1, e1⟩ := incr_ok h1
      have hlt : a.toNat < sarr.length := by omega
      have hba := hb _ hlt
      simp only [List.length_cons, Nat.cast_add, Nat.cast_one] at hba
      have hw : wrap (sarr.getD a.toNat 0 + 1) = sarr.getD a.toNat 0 + 1 := by
        apply wrap_eq <;> omega
      rw [hw] at e1
      have hlen : sarr1.length = sarr.length := by rw [e1, List.length_set]
      have hget : ∀ j : Nat, sarr1.getD j 0 =
          if j = a.toNat then sarr.getD a.toNat 0 + 1 else sarr.getD j 0 := by
        intro j; rw [e1, getD_set_eq _ _ _ _ hlt]
      have hb1 : ∀ j : Nat, j < sarr1.length →
          0 ≤ sarr1.getD j 0 ∧ sarr1.getD j 0 + rest.length < 2 ^ 63 := by
        intro j hj
        rw [hlen] at hj
        have := hb j hj
        simp only [List.length_cons, Nat.cast_add, Nat.cast_one] at this
        rw [hget]
        split
        · omega
        · omega
      obtain ⟨r1, r2, r3, r4⟩ := ih sarr1 sarr' hb1 h
      refine ⟨by rw [r1, hlen], ?_, ?_, ?_⟩
      · intro j hj
        rw [r2 j (by rw [hlen]; exact hj), hget, List.count_cons]
        by_cases hja : j = a.toNat
        · have : a = (j : Int) := by omega
          rw [if_pos hja, ← hja]
          simp [this]; ring
        · have : ¬ a = (j : Int) := by omega
          rw [if_neg hja]
          simp [this]
      · rw [r3, e1, sum_set_succ _ _ hlt]
        simp only [List.length_cons, Nat.cast_add, Nat.cast_one]; ring
      · intro x hx
        rcases List.mem_cons.mp hx with rfl | hx
        · exact ⟨ha0, ha1⟩
        · have := r4 x hx
          rw [hlen] at this
          exact this

/-- The histogram loop completes when every entry it visits is a valid index. -/
theorem histLoop_total :
    ∀ (rest sarr : List Int), (∀ a ∈ rest, 0 ≤ a ∧ a < sarr.length) →
      ∃ sarr', histLoop rest sarr = .ok sarr' := by
  intro rest
  induction rest with
  | nil => intro sarr _; exact ⟨sarr, rfl⟩
  | cons a rest ih =>
    intro sarr h
    have ha := h a (List.mem_cons_self a rest)
    have h1 := incr_of_lt (a := sarr) ha.1 ha.2
    obtain ⟨sarr', h2⟩ := ih (sarr.set a.toNat (wrap (sarr.getD a.toNat 0 + 1))) (by
      intro x hx
      rw [List.length_set]
      exact h x (List.mem_cons_of_mem a hx))
    refine ⟨sarr', ?_⟩
    unfold histLoop
    simp only [h1]
    exact h2

/-- The histogram of a table `arr` with fewer than `2^63` entries, when it is built. -/
theorem buildHist_ok {arr sarr : List Int} (hlen : (arr.length : Int) < 2 ^ 63)
    (h : buildHist arr = .ok sarr) :
    sarr.length = arr.length ∧
      (∀ j : Nat, j < arr.length → sarr.getD j 0 = arr.count (j : Int)) ∧
      sarr.sum = arr.length ∧ (∀ a ∈ arr, 0 ≤ a ∧ a < arr.length) := by
  unfold buildHist at h
  rw [make_length] at h
  simp only at h
  have := histLoop_ok arr (List.replicate arr.length 0) sarr (by
    intro j _
    rw [getD_replicate_zero]
    omega) h
  simp only [List.length_replicate, getD_replicate_zero, zero_add, List.sum_replicate,
    smul_zero] at this
  exact this

/-- The histogram is built when every occupancy is below the number of segments. -/
theorem buildHist_total {arr : List Int} (h : ∀ a ∈ arr, 0 ≤ a ∧ a < arr.length) :
    ∃ sarr, buildHist arr = .ok sarr := by
  unfold buildHist
  rw [make_length]
  simp only
  exact histLoop_total arr _ (by simpa using h)

/-- The histogram loop panics at the first entry when that entry is not below the length. -/
theorem buildHist_head_panic {a : Int} {rest : List Int}
    (h : ((a :: rest).length : Int) ≤ a) :
    buildHist (a :: rest) = .error (.indexOutOfRange a (a :: rest).length) := by
  unfold buildHist
  rw [make_length]
  simp only
  unfold histLoop
  rw [incr_of_ge (by simpa using h)]
  simp

/-! ## Allocation of the table -/

theorem tdiv_abs_bounds (a b : Int) : -|a| ≤ Int.tdiv a b ∧ Int.tdiv a b ≤ |a| := by
  rcases le_total 0 a with ha | ha
  · rw [abs_of_nonneg ha]; exact tdiv_bounds b ha
  · have h := tdiv_bounds (a := -a) b (by omega)
    rw [Int.neg_tdiv] at h
    rw [abs_of_nonpos ha]
    omega

theorem tdiv_le_of_bounds {t s A : Int} (hA : 0 ≤ A) (h1 : 0 < s → t < (A + 1) * s)
    (h2 : s < 0 → (A + 1) * s < t) (hs : s ≠ 0) : Int.tdiv t s ≤ A := by
  rcases lt_or_gt_of_ne hs with hneg | hpos
  · have hb : 0 ≤ -s := by omega
    have e : Int.tdiv t s = -(Int.tdiv t (-s)) := by rw [Int.tdiv_neg, neg_neg]
    rcases le_total 0 t with ht | ht
    · rw [e, Int.tdiv_eq_ediv ht hb]
      have := Int.ediv_nonneg ht hb
      omega
    · have e2 : Int.tdiv t (-s) = -(Int.tdiv (-t) (-s)) := by rw [Int.neg_tdiv, neg_neg]
      rw [e, e2, neg_neg, Int.tdiv_eq_ediv (by omega) hb]
      have := Int.ediv_lt_of_lt_mul (a := -t) (b := A + 1) (c := -s) (by omega) (by
        have := h2 hneg
        linarith)
      omega
  · have hb : 0 ≤ s := by omega
    rcases le_total 0 t with ht | ht
    · rw [Int.tdiv_eq_ediv ht hb]
      have := Int.ediv_lt_of_lt_mul (a := t) (b := A + 1) (c := s) hpos (h1 hpos)
      omega
    · have e2 : Int.tdiv t s = -(Int.tdiv (-t) s) := by rw [Int.neg_tdiv, neg_neg]
      rw [e2, Int.tdiv_eq_ediv (by omega) hb]
      have := Int.ediv_nonneg (a := -t) (b := s) (by omega) hb
      omega

/-- Whatever `seg` is, a table that gets allocated is zeroed and has at most `asize` entries. -/
theorem allocArr_ok {A seg : Int} {arr0 : List Int} (hA : 0 < A) (hA2 : A < 2 ^ 63)
    (h : allocArr A seg = .ok arr0) :
    ∃ n : Nat, arr0 = List.replicate n 0 ∧ (n : Int) ≤ A := by
  unfold allocArr at h
  split at h
  · cases h
  · rename_i n hn
    obtain ⟨hs, e⟩ := goDiv_ok hn
    unfold make at h
    split at h
    · cases h
    · rename_i hn0
      injection h with h
      refine ⟨n.toNat, h.symm, ?_⟩
      have ht := wrap_bounds (wrap (A + seg) - 1)
      have hq := tdiv_abs_bounds (wrap (wrap (A + seg) - 1)) seg
      have hup : Int.tdiv (wrap (wrap (A + seg) - 1)) seg ≤ A := by
        apply tdiv_le_of_bounds (by omega) _ _ hs
        · intro hpos
          have h1 : wrap (wrap (A + seg) - 1) ≤ A + seg - 1 := by unfold wrap; omega
          nlinarith
        · intro hneg
          have h1 : A + seg - 1 ≤ wrap (wrap (A + seg) - 1) := by unfold wrap; omega
          nlinarith
      have habs : |wrap (wrap (A + seg) - 1)| ≤ 2 ^ 63 := by
        rw [abs_le]; constructor <;> omega
      have : n ≤ A := by
        rw [e]
        by_cases hlow : Int.tdiv (wrap (wrap (A + seg) - 1)) seg = 2 ^ 63
        · omega
        · rw [wrap_eq (by omega) (by omega)]; exact hup
      omega

/-- For a positive segment size whose sum with `asize` fits an `int`, the table has
`(asize + seg - 1) / seg` entries, at least one and at most `asize`. -/
theorem allocArr_valid {A seg : Int} (hA : 0 < A) (hs : 1 ≤ seg) (hb : A + seg - 1 < 2 ^ 63) :
    allocArr A seg = .ok (List.replicate ((A + seg - 1) / seg).toNat 0) ∧
      1 ≤ (A + seg - 1) / seg ∧ (A + seg - 1) / seg ≤ A := by
  have hw : wrap (wrap (A + seg) - 1) = A + seg - 1 := by unfold wrap; omega
  have hq0 : 1 ≤ (A + seg - 1) / seg := by
    have := Int.lt_ediv_add_one_mul_self (A + seg - 1) (b := seg) (by omega)
    by_contra hc
    have h0 : (A + seg - 1) / seg ≤ 0 := by omega
    nlinarith
  have hq1 : (A + seg - 1) / seg ≤ A := by
    have := Int.ediv_lt_of_lt_mul (a := A + seg - 1) (b := A + 1) (c := seg) (by omega)
      (by nlinarith)
    omega
  refine ⟨?_, hq0, hq1⟩
  unfold allocArr goDiv
  rw [if_neg (by omega), hw, Int.tdiv_eq_ediv (by omega) (by omega),
    wrap_eq (by omega) (by omega)]
  simp only
  unfold make
  rw [if_neg (by omega)]

/-- A draw below `asize` lands inside the table of `(asize + seg - 1) / seg` entries. -/
theorem draw_index_lt {A seg d : Int} (hs : 1 ≤ seg) (hd0 : 0 ≤ d) (hd : d < A) (hA : A < 2 ^ 63) :
    0 ≤ wrap (Int.tdiv d seg) ∧ wrap (Int.tdiv d seg) < (A + seg - 1) / seg ∧
      wrap (Int.tdiv d seg) = d / seg := by
  have h1 := Int.ediv_nonneg hd0 (show (0 : Int) ≤ seg by omega)
  have h2 := Int.ediv_le_self seg hd0
  have h3 : d / seg < (A + seg - 1) / seg := by
    have a1 := Int.ediv_mul_le d (b := seg) (by omega)
    have a2 := Int.lt_ediv_add_one_mul_self (A + seg - 1) (b := seg) (by omega)
    by_contra hc
    have : (A + seg - 1) / seg ≤ d / seg := by omega
    nlinarith
  rw [Int.tdiv_eq_ediv hd0 (by omega), wrap_eq (by omega) (by omega)]
  exact ⟨h1, h3, rfl⟩

/-! ## Anatomy of a call -/

/-- A call in which the table was allocated and the draw loop completed. -/
theorem hashAt_of_draw {A seg factor : Int} {rnd : Nat → Int} {arr0 arr : List Int} {d : Nat}
    (h1 : allocArr A seg = .ok arr0)
    (h2 : drawLoop seg rnd (dsize A factor).toNat 0 arr0 = (d, .ok arr)) :
    hashAt A seg factor rnd =
      match buildHist arr with
      | .error p => ⟨⟨A, seg, load A factor⟩, d, some arr, none, [], .panic p⟩
      | .ok sarr => ⟨⟨A, seg, load A factor⟩, d, some arr, some sarr,
          (printLoop sarr arr.length 1000 0 0).1, (printLoop sarr arr.length 1000 0 0).2⟩ := by
  unfold hashAt
  simp only [h1, h2]

/-- A call in which the histogram was built as well. -/
theorem hashAt_of_hist {A seg factor : Int} {rnd : Nat → Int} {arr0 arr sarr : List Int} {d : Nat}
    (h1 : allocArr A seg = .ok arr0)
    (h2 : drawLoop seg rnd (dsize A factor).toNat 0 arr0 = (d, .ok arr))
    (h3 : buildHist arr = .ok sarr) :
    hashAt A seg factor rnd = ⟨⟨A, seg, load A factor⟩, d, some arr, some sarr,
      (printLoop sarr arr.length 1000 0 0).1, (printLoop sarr arr.length 1000 0 0).2⟩ := by
  rw [hashAt_of_draw h1 h2]
  simp only [h3]

/-- A call in which the histogram loop panicked. -/
theorem hashAt_of_hist_panic {A seg factor : Int} {rnd : Nat → Int} {arr0 arr : List Int}
    {d : Nat} {p : Panic} (h1 : allocArr A seg = .ok arr0)
    (h2 : drawLoop seg rnd (dsize A factor).toNat 0 arr0 = (d, .ok arr))
    (h3 : buildHist arr = .error p) :
    hashAt A seg factor rnd = ⟨⟨A, seg, load A factor⟩, d, some arr, none, [], .panic p⟩ := by
  rw [hashAt_of_draw h1 h2]
  simp only [h3]

/-- When a call reports a table, the table was allocated and the draw loop completed. -/
theorem hashAt_arr_inv {A seg factor : Int} {rnd : Nat → Int} {arr : List Int}
    (h : (hashAt A seg factor rnd).arr = some arr) :
    ∃ arr0 d, allocArr A seg = .ok arr0 ∧
      drawLoop seg rnd (dsize A factor).toNat 0 arr0 = (d, .ok arr) := by
  unfold hashAt at h
  split at h
  · simp at h
  · rename_i arr0 h1
    split at h
    · simp at h
    · rename_i d arr1 h2
      refine ⟨arr0, d, h1, ?_⟩
      have : arr1 = arr := by
        split at h <;> simpa using h
      rw [← this]; exact h2

/-- When a call reports a histogram, it was built from the reported table. -/
theorem hashAt_sarr_inv {A seg factor : Int} {rnd : Nat → Int} {sarr : List Int}
    (h : (hashAt A seg factor rnd).sarr = some sarr) :
    ∃ arr0 d arr, allocArr A seg = .ok arr0 ∧
      drawLoop seg rnd (dsize A factor).toNat 0 arr0 = (d, .ok arr) ∧
      buildHist arr = .ok sarr := by
  unfold hashAt at h
  split at h
  · simp at h
  · rename_i arr0 h1
    split at h
    · simp at h
    · rename_i d arr1 h2
      split at h
      · simp at h
      · rename_i sarr1 h3
        simp only [Option.some.injEq] at h
        subst h
        exact ⟨arr0, d, arr1, h1, h2, h3⟩

/-- What the draw loop of a call leaves behind, whenever it completes: it drew
`dsize` times (none when `dsize` is negative), entry `k` of the table is the number of draws
that landed in segment `k`, and the entries add up to the number of draws. -/
theorem draw_result {A seg factor : Int} {rnd : Nat → Int} {arr0 arr : List Int} {d : Nat}
    (hA : 0 < A) (hA2 : A < 2 ^ 63) (hr : ∀ j, 0 ≤ rnd j ∧ rnd j < A)
    (h1 : allocArr A seg = .ok arr0)
    (h2 : drawLoop seg rnd (dsize A factor).toNat 0 arr0 = (d, .ok arr)) :
    d = (dsize A factor).toNat ∧ arr.length = arr0.length ∧ (arr.length : Int) ≤ A ∧
      (∀ k : Nat, k < arr.length → arr.getD k 0 = hits seg rnd (dsize A factor).toNat k) ∧
      arr.sum = (dsize A factor).toNat := by
  obtain ⟨n, e, hn⟩ := allocArr_ok hA hA2 h1
  have hd := wrap_bounds (Int.tdiv (wrap (A * factor)) 100)
  have hb : ((0 : Nat) : Int) + ((dsize A factor).toNat : Int) < 2 ^ 63 := by
    unfold dsize; omega
  obtain ⟨r1, r2, r3, r4⟩ := drawLoop_ok seg rnd (fun j => ⟨(hr j).1, by have := (hr j).2; omega⟩)
    (dsize A factor).toNat 0 arr0 arr d hb
    (by intro k _; rw [e, getD_replicate_zero]; simp [hits])
    (by rw [e]; simp) h2
  simp only [zero_add] at r1 r3 r4
  refine ⟨r1, r2, ?_, ?_, r4⟩
  · rw [r2, e, List.length_replicate]; exact hn
  · intro k hk; exact r3 k (by rw [← r2]; exact hk)

/-! ## The table and the histogram of a call -/

theorem asize_eq : asize = 2097152 := by decide

theorem ceil_div_eq {A seg : Int} (hs : 1 ≤ seg) :
    ⌈(A : ℚ) / (seg : ℚ)⌉ = (A + seg - 1) / seg := by
  have h1 := Int.ediv_mul_le (A + seg - 1) (b := seg) (by omega)
  have h2 := Int.lt_ediv_add_one_mul_self (A + seg - 1) (b := seg) (by omega)
  have hs' : (0 : ℚ) < (seg : ℚ) := by exact_mod_cast (show (0 : Int) < seg by omega)
  rw [Int.ceil_eq_iff]
  constructor
  · rw [lt_div_iff₀ hs']
    have : ((A + seg - 1) / seg - 1) * seg < A := by nlinarith
    exact_mod_cast this
  · rw [div_le_iff₀ hs']
    have : A ≤ ((A + seg - 1) / seg) * seg := by nlinarith
    exact_mod_cast this

theorem mem_getD {arr : List Int} {a : Int} (h : a ∈ arr) :
    ∃ k : Nat, k < arr.length ∧ arr.getD k 0 = a := by
  obtain ⟨k, hk, e⟩ := List.mem_iff_getElem.mp h
  exact ⟨k, hk, by rw [List.getD_eq_getElem _ _ hk]; exact e⟩

/-- The table reported by a call: what the draw loop computed. -/
theorem hashAt_table {A seg factor : Int} {rnd : Nat → Int} {arr : List Int}
    (hA : 0 < A) (hA2 : A < 2 ^ 63) (hr : ∀ j, 0 ≤ rnd j ∧ rnd j < A)
    (h : (hashAt A seg factor rnd).arr = some arr) :
    (hashAt A seg factor rnd).drawn = (dsize A factor).toNat ∧ (arr.length : Int) ≤ A ∧
      (∀ k : Nat, k < arr.length → arr.getD k 0 = hits seg rnd (dsize A factor).toNat k) ∧
      arr.sum = (dsize A factor).toNat := by
  obtain ⟨arr0, d, h1, h2⟩ := hashAt_arr_inv h
  obtain ⟨r1, _, r3, r4, r5⟩ := draw_result hA hA2 hr h1 h2
  refine ⟨?_, r3, r4, r5⟩
  rw [hashAt_of_draw h1 h2, ← r1]
  split <;> rfl

/-- For a positive segment size whose sum with `asize` fits an `int`, the draw loop
completes and the call reports a table with `(asize + seg - 1) / seg` entries. -/
theorem hashAt_table_total {A seg : Int} (factor : Int) {rnd : Nat → Int}
    (hA : 0 < A) (hs : 1 ≤ seg) (hb : A + seg - 1 < 2 ^ 63) (hr : ∀ j, 0 ≤ rnd j ∧ rnd j < A) :
    ∃ arr, (hashAt A seg factor rnd).arr = some arr ∧ (arr.length : Int) = (A + seg - 1) / seg := by
  obtain ⟨h1, hq0, hq1⟩ := allocArr_valid hA hs hb
  obtain ⟨arr, h2⟩ := drawLoop_total seg rnd (by omega) ((A + seg - 1) / seg).toNat
    (fun j => by
      obtain ⟨a, b, _⟩ := draw_index_lt hs (hr j).1 (hr j).2 (by omega)
      exact ⟨a, by omega⟩)
    (dsize A factor).toNat 0 _ (List.length_replicate _ _)
  rw [zero_add] at h2
  obtain ⟨_, r2, _⟩ := draw_result hA (by omega) hr h1 h2
  refine ⟨arr, ?_, ?_⟩
  · rw [hashAt_of_draw h1 h2]
    split <;> rfl
  · rw [r2, List.length_replicate]; omega

/-- The histogram reported by a call: built from the reported table, of the same length,
entry `j` counting the segments of occupancy `j`; the rows come from the print loop. -/
theorem hashAt_hist {A seg factor : Int} {rnd : Nat → Int} {sarr : List Int}
    (hA : 0 < A) (hA2 : A < 2 ^ 63) (hr : ∀ j, 0 ≤ rnd j ∧ rnd j < A)
    (h : (hashAt A seg factor rnd).sarr = some sarr) :
    ∃ arr, (hashAt A seg factor rnd).arr = some arr ∧ sarr.length = arr.length ∧
      (∀ j : Nat, j < arr.length → sarr.getD j 0 = arr.count (j : Int)) ∧
      sarr.sum = arr.length ∧ (∀ a ∈ arr, 0 ≤ a ∧ a < arr.length) ∧
      (hashAt A seg factor rnd).rows = (printLoop sarr arr.length 1000 0 0).1 ∧
      (hashAt A seg factor rnd).outcome = (printLoop sarr arr.length 1000 0 0).2 := by
  obtain ⟨arr0, d, arr, h1, h2, h3⟩ := hashAt_sarr_inv h
  obtain ⟨_, _, r3, _⟩ := draw_result hA hA2 hr h1 h2
  obtain ⟨b1, b2, b3, b4⟩ := buildHist_ok (by omega) h3
  refine ⟨arr, ?_, b1, b2, b3, b4, ?_, ?_⟩ <;> rw [hashAt_of_hist h1 h2 h3]

/-- The histogram is built when no entry of the table reaches the length of the table. -/
theorem hashAt_hist_total {A seg factor : Int} {rnd : Nat → Int} {arr : List Int}
    (hA : 0 < A) (hA2 : A < 2 ^ 63) (hr : ∀ j, 0 ≤ rnd j ∧ rnd j < A)
    (h : (hashAt A seg factor rnd).arr = some arr) (hocc : ∀ a ∈ arr, a < arr.length) :
    ∃ sarr, (hashAt A seg factor rnd).sarr = some sarr := by
  obtain ⟨arr0, d, h1, h2⟩ := hashAt_arr_inv h
  obtain ⟨_, _, _, r4, _⟩ := draw_result hA hA2 hr h1 h2
  obtain ⟨sarr, h3⟩ := @buildHist_total arr (fun a ha => by
    obtain ⟨k, hk, e⟩ := mem_getD ha
    refine ⟨?_, hocc a ha⟩
    rw [← e, r4 k hk]; omega)
  exact ⟨sarr, by rw [hashAt_of_hist h1 h2 h3]⟩

theorem roundRobin_range (size : Nat) (hs : 0 < size) (i : Nat) :
    0 ≤ roundRobin size i ∧ roundRobin size i < size := by
  unfold roundRobin
  have := Nat.mod_lt i hs
  omega

theorem dsize_eq {factor : Int} (hf : 0 ≤ factor) (hfU : factor < 2 ^ 42) :
    dsize asize factor = Int.tdiv (asize * factor) 100 ∧ 0 ≤ Int.tdiv (asize * factor) 100 := by
  unfold dsize
  rw [asize_eq]
  have h1 : wrap (2097152 * factor) = 2097152 * factor := wrap_eq (by omega) (by omega)
  have h2 := tdiv_bounds (a := 2097152 * factor) 100 (by omega)
  rw [h1, Int.tdiv_eq_ediv (by omega) (by omega)] at *
  have h3 : 0 ≤ 2097152 * factor / 100 := Int.ediv_nonneg (by omega) (by omega)
  exact ⟨wrap_eq (by omega) (by omega), h3⟩

/-- A call whose table starts with an entry that is not below the number of segments: the
histogram loop panics at its first iteration and nothing is printed after the header. -/
theorem hashAt_head_panic {A seg factor : Int} {rnd : Nat → Int} {a : Int} {rest : List Int}
    (h : (hashAt A seg factor rnd).arr = some (a :: rest))
    (ha : ((a :: rest).length : Int) ≤ a) :
    (hashAt A seg factor rnd).sarr = none ∧ (hashAt A seg factor rnd).rows = [] ∧
      (hashAt A seg factor rnd).outcome = .panic (.indexOutOfRange a (a :: rest).length) := by
  obtain ⟨arr0, d, h1, h2⟩ := hashAt_arr_inv h
  rw [hashAt_of_hist_panic h1 h2 (buildHist_head_panic ha)]
  exact ⟨rfl, rfl, rfl⟩

theorem hits_const_zero (seg : Int) (n : Nat) : hits seg (fun _ => 0) n 0 = n := by
  unfold hits
  simp

/-- When every draw is `0`, the first entry of the table holds all `dsize` draws; if that
is not below the number of segments the histogram loop panics. -/
theorem hash_all_zero_panic {seg factor : Int} (hs : 1 ≤ seg) (hsU : seg ≤ 2 ^ 63 - 2 ^ 21)
    (hd : (asize + seg - 1) / seg ≤ dsize asize factor) :
    ∃ rest, (hash seg factor (fun _ => 0)).arr = some (dsize asize factor :: rest) ∧
      rest.length + 1 = ((asize + seg - 1) / seg).toNat ∧
      (hash seg factor (fun _ => 0)).sarr = none ∧ (hash seg factor (fun _ => 0)).rows = [] ∧
      (hash seg factor (fun _ => 0)).outcome =
        .panic (.indexOutOfRange (dsize asize factor) ((asize + seg - 1) / seg).toNat) := by
  have hA : (0 : Int) < asize := by rw [asize_eq]; omega
  have hA2 : asize < 2 ^ 63 := by rw [asize_eq]; omega
  have hr : ∀ j : Nat, 0 ≤ (fun _ : Nat => (0 : Int)) j ∧ (fun _ : Nat => (0 : Int)) j < asize :=
    fun _ => ⟨le_refl _, hA⟩
  obtain ⟨arr, h1, hlen⟩ := hashAt_table_total factor hA hs (by rw [asize_eq]; omega) hr
  obtain ⟨_, _, r3, _⟩ := hashAt_table hA hA2 hr h1
  obtain ⟨_, hq0, _⟩ := @allocArr_valid asize seg hA hs (by rw [asize_eq]; omega)
  cases arr with
  | nil => simp at hlen; omega
  | cons a rest =>
    have ha := r3 0 (by simp)
    simp only [List.getD_cons_zero, Nat.cast_zero, hits_const_zero] at ha
    have hd0 : 0 ≤ dsize asize factor := by omega
    rw [Int.toNat_of_nonneg hd0] at ha
    have hl : (a :: rest).length = ((asize + seg - 1) / seg).toNat := by omega
    have := hashAt_head_panic h1 (by rw [hlen, ha]; exact hd)
    rw [hl, ha] at this
    rw [ha] at h1
    exact ⟨rest, h1, by simpa using hl, this⟩

/-- C1 (amended): for `1 ≤ seg ≤ 2^63 - 2^21`, `0 ≤ factor < 2^42` and every sequence of
draws in `[0, asize)`, the draw loop of `hash` completes after exactly
`asize * factor / 100` draws (truncating division, `asize = 2^21`) and the entries of the
segment occupancy table `arr` add up to that number. -/
theorem table_sum_eq_numDraws (seg factor : Int) (rnd : Nat → Int)
    (hs : 1 ≤ seg) (hsU : seg ≤ 2 ^ 63 - 2 ^ 21) (hf : 0 ≤ factor) (hfU : factor < 2 ^ 42)
    (hr : ∀ i, 0 ≤ rnd i ∧ rnd i < asize) :
    ∃ arr, (hash seg factor rnd).arr = some arr ∧
      arr.sum = Int.tdiv (asize * factor) 100 ∧
      ((hash seg factor rnd).drawn : Int) = Int.tdiv (asize * factor) 100 := by
  have hA : (0 : Int) < asize := by rw [asize_eq]; omega
  have hA2 : asize < 2 ^ 63 := by rw [asize_eq]; omega
  obtain ⟨arr, h1, _⟩ := hashAt_table_total factor hA hs (by rw [asize_eq]; omega) hr
  obtain ⟨r1, _, _, r4⟩ := hashAt_table hA hA2 hr h1
  obtain ⟨e, e0⟩ := dsize_eq hf hfU
  refine ⟨arr, h1, ?_, ?_⟩
  · rw [r4, e, Int.toNat_of_nonneg e0]
  · unfold hash
    rw [r1, e, Int.toNat_of_nonneg e0]

/-- Witness of C1 at the driver's first call, `hash(16, 90)`, under round-robin draws. -/
theorem table_sum_eq_numDraws_witness :
    ∃ arr, (hash 16 90 (roundRobin 2097152)).arr = some arr ∧
      arr.sum = Int.tdiv (asize * 90) 100 ∧
      ((hash 16 90 (roundRobin 2097152)).drawn : Int) = Int.tdiv (asize * 90) 100 :=
  table_sum_eq_numDraws 16 90 (roundRobin 2097152) (by decide) (by decide) (by decide)
    (by decide) (fun i => by
      have := roundRobin_range 2097152 (by decide) i
      rw [asize_eq]; exact this)

/-- Counterexample to C1 as stated: with `factor = 2^42` the product `asize * factor`
overflows the 64-bit `int`, `dsize` is negative, no draw is made and the table `[0]` adds up
to `0`, not to `2^63 / 100`; with `seg = 2^63 - 1` the sum `asize + seg - 1` overflows, the
table is empty and the first draw panics, so there is no table after the draw loop. -/
theorem table_sum_counterexample :
    ¬ (∃ arr, (hash (2 ^ 21) (2 ^ 42) (fun _ => 0)).arr = some arr ∧
        arr.sum = Int.tdiv (asize * 2 ^ 42) 100) ∧
    ¬ (∃ arr, (hash (2 ^ 63 - 1) 1 (fun _ => 0)).arr = some arr ∧
        arr.sum = Int.tdiv (asize * 1) 100) := by
  have e1 : (hash (2 ^ 21) (2 ^ 42) (fun _ => 0)).arr = some [0] := by decide
  have e2 : (hash (2 ^ 63 - 1) 1 (fun _ => 0)).arr = none := by decide
  constructor
  · rintro ⟨arr, h, hsum⟩
    rw [e1] at h
    injection h with h
    subst h
    revert hsum
    decide
  · rintro ⟨arr, h, _⟩
    rw [e2] at h
    cases h

/-- Under round-robin draws, segment `k` has received `min (n - k * s) s` of the first
`n ≤ size` draws. -/
theorem hits_roundRobin (s size k : Nat) (hs : 0 < s) :
    ∀ n : Nat, n ≤ size → hits (s : Int) (roundRobin size) n (k : Int) = min (n - k * s) s := by
  intro n
  induction n with
  | zero => intro _; simp [hits]
  | succ n ih =>
    intro hn
    rw [hits_succ, ih (by omega)]
    have e1 : roundRobin size n = (n : Int) := by
      unfold roundRobin; rw [Nat.mod_eq_of_lt (by omega)]
    have e2 : Int.tdiv (n : Int) (s : Int) = ((n / s : Nat) : Int) := by
      rw [Int.tdiv_eq_ediv (by omega) (by omega)]; norm_cast
    have e3 : (n / s = k) ↔ (k * s ≤ n ∧ n < k * s + s) := by
      have a1 := Nat.le_div_iff_mul_le (x := k) (y := n) hs
      have a2 := Nat.div_lt_iff_lt_mul (x := n) (y := k + 1) hs
      have a3 : (k + 1) * s = k * s + s := by ring
      rw [a3] at a2
      constructor
      · intro h; exact ⟨a1.mp (by omega), a2.mp (by omega)⟩
      · intro h
        have b1 := a1.mpr h.1
        have b2 := a2.mpr h.2
        omega
    rw [e1, e2]
    by_cases hc : n / s = k
    · have := e3.mp hc
      rw [if_pos (by exact_mod_cast hc)]
      omega
    · have hc2 : ¬ (k * s ≤ n ∧ n < k * s + s) := fun h => hc (e3.mpr h)
      rw [if_neg (by exact_mod_cast hc)]
      omega

/-- Under round-robin draws no segment of `hash` receives more than `seg` draws, as long as
at most `asize` draws are made. -/
theorem roundRobin_occ_le (s : Nat) (hs : 0 < s) (factor : Int)
    (hn : (dsize asize factor).toNat ≤ 2097152) (arr : List Int)
    (h : (hash (s : Int) factor (roundRobin 2097152)).arr = some arr) :
    ∀ a ∈ arr, a ≤ (s : Int) := by
  have hA : (0 : Int) < asize := by rw [asize_eq]; omega
  have hA2 : asize < 2 ^ 63 := by rw [asize_eq]; omega
  have hr : ∀ i, 0 ≤ roundRobin 2097152 i ∧ roundRobin 2097152 i < asize := fun i => by
    have := roundRobin_range 2097152 (by decide) i
    rw [asize_eq]; exact this
  obtain ⟨_, _, r3, _⟩ := hashAt_table hA hA2 hr h
  intro a ha
  obtain ⟨k, hk, e⟩ := mem_getD ha
  rw [← e, r3 k hk, hits_roundRobin s 2097152 k hs _ hn]
  omega

/-- C2 (amended): for `1 ≤ seg ≤ 2^63 - 2^21`, every `factor` and every sequence of draws in
`[0, asize)` that leaves the occupancy of every segment below the number of segments, `hash`
builds the occupancy histogram `sarr` and its counts add up to `⌈asize / seg⌉`, the number of
segments. -/
theorem hist_sum_eq_numSegments (seg factor : Int) (rnd : Nat → Int)
    (hs : 1 ≤ seg) (hsU : seg ≤ 2 ^ 63 - 2 ^ 21) (hr : ∀ i, 0 ≤ rnd i ∧ rnd i < asize)
    (hocc : ∀ arr, (hash seg factor rnd).arr = some arr →
      ∀ a ∈ arr, a < ⌈(asize : ℚ) / (seg : ℚ)⌉) :
    ∃ sarr, (hash seg factor rnd).sarr = some sarr ∧ sarr.sum = ⌈(asize : ℚ) / (seg : ℚ)⌉ := by
  have hA : (0 : Int) < asize := by rw [asize_eq]; omega
  have hA2 : asize < 2 ^ 63 := by rw [asize_eq]; omega
  obtain ⟨arr, h1, hlen⟩ := hashAt_table_total factor hA hs (by rw [asize_eq]; omega) hr
  rw [ceil_div_eq hs] at hocc ⊢
  obtain ⟨sarr, h2⟩ := hashAt_hist_total hA hA2 hr h1 (by
    intro a ha
    rw [hlen]
    exact hocc arr h1 a ha)
  obtain ⟨arr', h1', _, _, r3, _⟩ := hashAt_hist hA hA2 hr h2
  rw [h1] at h1'
  injection h1' with h1'
  subst h1'
  exact ⟨sarr, h2, by rw [r3, hlen]⟩

/-- Witness of C2 at the driver's first call, `hash(16, 90)`, under round-robin draws: no
segment receives more than 16 of the draws. -/
theorem hist_sum_eq_numSegments_witness :
    ∃ sarr, (hash 16 90 (roundRobin 2097152)).sarr = some sarr ∧
      sarr.sum = ⌈(asize : ℚ) / ((16 : Int) : ℚ)⌉ :=
  hist_sum_eq_numSegments 16 90 (roundRobin 2097152) (by decide) (by decide)
    (fun i => by
      have := roundRobin_range 2097152 (by decide) i
      rw [asize_eq]; exact this)
    (fun arr h a ha => by
      have h16 := roundRobin_occ_le 16 (by decide) 90 (by decide) arr h a ha
      rw [ceil_div_eq (by decide)]
      have : (131072 : Int) ≤ (asize + 16 - 1) / 16 := by decide
      push_cast at h16
      omega)

/-- Counterexample to C2 as stated: with `seg = 2^63 - 1` the length expression overflows
and the histogram is empty, so its counts add up to `0`, not `⌈asize / seg⌉ = 1`; with
`hash(16, 90)` and every draw equal to `0`, segment 0 has occupancy 1887436, which is not an
index of the 131072-entry histogram, and no histogram is built. -/
theorem hist_sum_counterexample :
    ¬ (∃ sarr, (hash (2 ^ 63 - 1) 0 (fun _ => 0)).sarr = some sarr ∧
        sarr.sum = ⌈(asize : ℚ) / ((2 ^ 63 - 1 : Int) : ℚ)⌉) ∧
    ¬ (∃ sarr, (hash 16 90 (fun _ => 0)).sarr = some sarr ∧
        sarr.sum = ⌈(asize : ℚ) / ((16 : Int) : ℚ)⌉) := by
  have e1 : (hash (2 ^ 63 - 1) 0 (fun _ => 0)).sarr = some [] := by decide
  constructor
  · rintro ⟨sarr, h, hsum⟩
    rw [e1] at h
    injection h with h
    subst h
    rw [ceil_div_eq (by decide)] at hsum
    revert hsum
    decide
  · rintro ⟨sarr, h, _⟩
    obtain ⟨_, _, _, hnone, _⟩ := @hash_all_zero_panic 16 90 (by decide) (by decide)
      (by decide)
    rw [hnone] at h
    cases h

/-- C3: for any value `A` of the constant `asize` from 1 up to the source's `2^21` (`hash`
is the case `A = 2^21`), the segment occupancy table computed by a call has at every index
`k` the number of draws `d` made with `d / seg = k`, and the histogram computed by it has
the length of the table and at every index `j` the number of segments whose occupancy is
exactly `j`. -/
theorem table_and_histogram_counts (A seg factor : Int) (rnd : Nat → Int) (arr : List Int)
    (hA : 0 < A) (hA1 : A ≤ asize) (hr : ∀ i, 0 ≤ rnd i ∧ rnd i < A)
    (h : (hashAt A seg factor rnd).arr = some arr) :
    (∀ k : Nat, k < arr.length →
        arr.getD k 0 = hits seg rnd (hashAt A seg factor rnd).drawn k) ∧
    (∀ sarr, (hashAt A seg factor rnd).sarr = some sarr → sarr.length = arr.length ∧
        ∀ j : Nat, j < sarr.length → sarr.getD j 0 = arr.count (j : Int)) := by
  have hA2 : A < 2 ^ 63 := by rw [asize_eq] at hA1; omega
  obtain ⟨r1, _, r3, _⟩ := hashAt_table hA hA2 hr h
  refine ⟨by rw [r1]; exact r3, ?_⟩
  intro sarr h2
  obtain ⟨arr', h1', b1, b2, _⟩ := hashAt_hist hA hA2 hr h2
  rw [h] at h1'
  injection h1' with h1'
  subst h1'
  exact ⟨b1, fun j hj => b2 j (by rw [← b1]; exact hj)⟩

/-- Witness of C3, the determinism scenario: 4 segments of size 1 and the draws
`[0, 0, 1, 3]` give the table `[2, 1, 0, 1]` and the histogram `0 ↦ 1, 1 ↦ 2, 2 ↦ 1`. -/
theorem table_and_histogram_counts_witness :
    (hashAt 4 1 100 fixedDraws).arr = some [2, 1, 0, 1] ∧
    (hashAt 4 1 100 fixedDraws).sarr = some [1, 2, 1, 0] ∧
    (hashAt 4 1 100 fixedDraws).drawn = 4 ∧
    ((∀ k : Nat, k < ([2, 1, 0, 1] : List Int).length →
        ([2, 1, 0, 1] : List Int).getD k 0 =
          hits 1 fixedDraws (hashAt 4 1 100 fixedDraws).drawn k) ∧
     (∀ sarr, (hashAt 4 1 100 fixedDraws).sarr = some sarr →
        sarr.length = ([2, 1, 0, 1] : List Int).length ∧
        ∀ j : Nat, j < sarr.length → sarr.getD j 0 = ([2, 1, 0, 1] : List Int).count (j : Int))) :=
  ⟨by decide, by decide, by decide,
    table_and_histogram_counts 4 1 100 fixedDraws [2, 1, 0, 1] (by decide) (by decide)
      (fun i => by
        unfold fixedDraws
        rcases i with _ | _ | _ | _ | i <;> simp)
      (by decide)⟩

/-! ## The print loop -/

theorem goDiv_nonneg {x y : Int} (hx : 0 ≤ x) (hx2 : x < 2 ^ 63) (hy : 0 < y) :
    goDiv (wrap x) y = .ok (x / y) := by
  unfold goDiv
  have h1 := Int.ediv_nonneg hx (show (0 : Int) ≤ y by omega)
  have h2 := Int.ediv_le_self y hx
  rw [if_neg (by omega), wrap_eq (by omega) hx2, Int.tdiv_eq_ediv hx (by omega),
    wrap_eq (by omega) (by omega)]

theorem take_sum_succ (sarr : List Int) (j : Nat) (hj : j < sarr.length) :
    (sarr.take (j + 1)).sum = (sarr.take j).sum + sarr.getD j 0 := by
  rw [List.sum_take_succ _ _ hj, List.getD_eq_getElem _ _ hj]

/-- The print loop on a histogram whose cumulative counts first reach the number of segments
`L` at index `m`: it prints the rows for `i, i + 1, ..., min m 999` and leaves through
`break` exactly when `m ≤ 999`. No arithmetic in it overflows. -/
theorem printLoop_spec (sarr : List Int) (L m : Nat) (hL : (L : Int) * 1000 < 2 ^ 63)
    (hL0 : 0 < L) (hm : m < sarr.length)
    (hent : ∀ j : Nat, j ≤ m → 0 ≤ sarr.getD j 0 ∧ sarr.getD j 0 ≤ L)
    (hcum : ∀ j : Nat, j < m → 0 ≤ (sarr.take (j + 1)).sum ∧ (sarr.take (j + 1)).sum < L)
    (hfull : (sarr.take (m + 1)).sum = L) :
    ∀ (n i : Nat), i + n = 1000 → i ≤ m →
      printLoop sarr L n i (sarr.take i).sum =
        ((List.range' i (min m 999 + 1 - i)).map (rowAt sarr L),
          if m ≤ 999 then .covered else .limit) := by
  intro n
  induction n with
  | zero =>
    intro i hi him
    have e : min m 999 + 1 - i = 0 := by omega
    rw [e, if_neg (by omega)]
    rfl
  | succ n ih =>
    intro i hi him
    have hidx : index sarr (i : Int) = .ok (sarr.getD i 0) := by
      unfold index
      rw [if_pos ⟨by omega, by omega⟩]
      simp
    have hc := hent i him
    have hs1 : 0 ≤ (sarr.take (i + 1)).sum ∧ (sarr.take (i + 1)).sum ≤ L := by
      rcases Nat.lt_or_ge i m with h | h
      · have := hcum i h; omega
      · have : i = m := by omega
        subst this; omega
    have hsum1 : wrap ((sarr.take i).sum + sarr.getD i 0) = (sarr.take (i + 1)).sum := by
      rw [← take_sum_succ _ _ (by omega)]
      exact wrap_eq (by omega) (by omega)
    have hrate : goDiv (wrap (sarr.getD i 0 * 1000)) L = .ok (sarr.getD i 0 * 1000 / L) :=
      goDiv_nonneg (by omega) (by omega) (by omega)
    have hcumv : goDiv (wrap (1000 * (sarr.take (i + 1)).sum)) L =
        .ok (1000 * (sarr.take (i + 1)).sum / L) :=
      goDiv_nonneg (by omega) (by omega) (by omega)
    unfold printLoop
    simp only [hidx, hsum1, hrate, hcumv]
    rcases Nat.lt_or_ge i m with h | h
    · have hlt := (hcum i h).2
      rw [if_neg (by omega), ih (i + 1) (by omega) (by omega)]
      have e : min m 999 + 1 - i = (min m 999 + 1 - (i + 1)) + 1 := by omega
      rw [e, List.range'_succ, List.map_cons]
      rfl
    · have him2 : i = m := by omega
      subst him2
      have e : min i 999 + 1 - i = 1 := by omega
      rw [if_pos hfull, e, if_pos (by omega)]
      rfl

/-! ## The largest occupancy and the cumulative counts -/

theorem maxOcc_cons (a : Int) (l : List Int) : maxOcc (a :: l) = max a (maxOcc l) := rfl

theorem maxOcc_nonneg (arr : List Int) : 0 ≤ maxOcc arr := by
  induction arr with
  | nil => exact le_refl _
  | cons a l ih => rw [maxOcc_cons]; exact le_trans ih (le_max_right _ _)

theorem le_maxOcc (arr : List Int) : ∀ a ∈ arr, a ≤ maxOcc arr := by
  induction arr with
  | nil => intro a ha; cases ha
  | cons b l ih =>
    intro a ha
    rw [maxOcc_cons]
    rcases List.mem_cons.mp ha with rfl | h
    · exact le_max_left _ _
    · exact le_trans (ih a h) (le_max_right _ _)

theorem maxOcc_mem (arr : List Int) (hne : arr ≠ []) (hnn : ∀ a ∈ arr, 0 ≤ a) :
    maxOcc arr ∈ arr := by
  induction arr with
  | nil => exact absurd rfl hne
  | cons b l ih =>
    rw [maxOcc_cons]
    rcases le_total b (maxOcc l) with h | h
    · rw [max_eq_right h]
      cases l with
      | nil =>
        have hb := hnn b (List.mem_cons_self _ _)
        have : maxOcc ([] : List Int) = 0 := rfl
        rw [this] at h ⊢
        have : b = 0 := by omega
        rw [this]; exact List.mem_cons_self _ _
      | cons c l2 =>
        exact List.mem_cons_of_mem _
          (ih (by simp) (fun a ha => hnn a (List.mem_cons_of_mem _ ha)))
    · rw [max_eq_left h]; exact List.mem_cons_self _ _

theorem countP_le_succ (arr : List Int) (j : Int) :
    arr.countP (fun a => decide (a ≤ j + 1)) =
      arr.countP (fun a => decide (a ≤ j)) + arr.count (j + 1) := by
  induction arr with
  | nil => rfl
  | cons b l ih =>
    rw [List.countP_cons, List.countP_cons, List.count_cons, ih]
    by_cases h1 : b ≤ j
    · have h2 : b ≤ j + 1 := by omega
      have h3 : ¬ b = j + 1 := by omega
      simp [h1, h2, h3]
      omega
    · by_cases h3 : b = j + 1
      · have h2 : b ≤ j + 1 := by omega
        simp [h1, h2, h3]
        omega
      · have h2 : ¬ b ≤ j + 1 := by omega
        simp [h1, h2, h3]

theorem countP_le_zero (arr : List Int) (hnn : ∀ a ∈ arr, 0 ≤ a) :
    arr.countP (fun a => decide (a ≤ 0)) = arr.count 0 := by
  induction arr with
  | nil => rfl
  | cons b l ih =>
    rw [List.countP_cons, List.count_cons, ih (fun a ha => hnn a (List.mem_cons_of_mem _ ha))]
    have hb := hnn b (List.mem_cons_self _ _)
    by_cases h : b = 0
    · simp [h]
    · have : ¬ b ≤ 0 := by omega
      simp [h, this]

/-- The cumulative count up to occupancy `j` is the number of segments of occupancy at
most `j`. -/
theorem cum_eq_countP (arr sarr : List Int) (hlen : sarr.length = arr.length)
    (hs : ∀ j : Nat, j < arr.length → sarr.getD j 0 = arr.count (j : Int))
    (hnn : ∀ a ∈ arr, 0 ≤ a) :
    ∀ j : Nat, j < arr.length →
      (sarr.take (j + 1)).sum = arr.countP (fun a => decide (a ≤ (j : Int))) := by
  intro j
  induction j with
  | zero =>
    intro h
    rw [take_sum_succ _ _ (by omega), hs 0 h]
    simp only [List.take_zero, List.sum_nil, zero_add, Nat.cast_zero]
    rw [countP_le_zero arr hnn]
  | succ j ih =>
    intro h
    rw [take_sum_succ _ _ (by omega), ih (by omega), hs (j + 1) h]
    push_cast
    rw [countP_le_succ]
    push_cast; rfl

theorem countP_lt_length {arr : List Int} {p : Int → Bool} {a : Int} (ha : a ∈ arr)
    (hp : p a = false) : arr.countP p < arr.length := by
  have h1 := List.countP_le_length p (l := arr)
  have h2 : arr.countP p ≠ arr.length := by
    intro e
    have := (List.countP_eq_length.mp e) a ha
    rw [hp] at this
    cases this
  omega

/-- The print loop of a call whose histogram was built from a non-empty table: the rows
are those of the occupancy values `0, ..., min (maxOcc arr) 999`, the loop leaves through
`break` exactly when `maxOcc arr ≤ 999`, and the cumulative count reaches the number of
segments at occupancy `maxOcc arr` and not before. -/
theorem print_of_hist {arr sarr : List Int} (hne : arr ≠ [])
    (hlen : (arr.length : Int) * 1000 < 2 ^ 63) (h : buildHist arr = .ok sarr) :
    printLoop sarr arr.length 1000 0 0 =
        ((List.range ((min (maxOcc arr) 999).toNat + 1)).map (rowAt sarr arr.length),
          if maxOcc arr ≤ 999 then .covered else .limit) ∧
      (∀ j : Nat, (j : Int) < maxOcc arr → (sarr.take (j + 1)).sum < arr.length) ∧
      (sarr.take ((maxOcc arr).toNat + 1)).sum = arr.length := by
  obtain ⟨b1, b2, _, b4⟩ := buildHist_ok (by omega) h
  have hnn : ∀ a ∈ arr, 0 ≤ a := fun a ha => (b4 a ha).1
  have hM := maxOcc_mem arr hne hnn
  have hM0 := (b4 _ hM).1
  have hM1 := (b4 _ hM).2
  have hcum := cum_eq_countP arr sarr b1 b2 hnn
  have hmlt : (maxOcc arr).toNat < arr.length := by omega
  have hfull : (sarr.take ((maxOcc arr).toNat + 1)).sum = arr.length := by
    rw [hcum _ hmlt]
    have : arr.countP (fun a => decide (a ≤ (((maxOcc arr).toNat : Nat) : Int))) = arr.length := by
      rw [List.countP_eq_length]
      intro a ha
      have := le_maxOcc arr a ha
      simp only [decide_eq_true_eq]
      omega
    rw [this]
  have hbelow : ∀ j : Nat, (j : Int) < maxOcc arr → (sarr.take (j + 1)).sum < arr.length := by
    intro j hj
    rw [hcum j (by omega)]
    have := countP_lt_length (p := fun a => decide (a ≤ (j : Int))) hM (by
      simp only [decide_eq_false_iff_not]; omega)
    exact_mod_cast this
  refine ⟨?_, hbelow, hfull⟩
  have hpos : 0 < arr.length := by
    cases arr with
    | nil => exact absurd rfl hne
    | cons a l => simp
  have key := printLoop_spec sarr arr.length (maxOcc arr).toNat hlen hpos (by omega)
    (fun j hj => by
      rw [b2 j (by omega)]
      have := List.count_le_length (j : Int) arr
      omega)
    (fun j hj => by
      refine ⟨?_, hbelow j (by omega)⟩
      rw [hcum j (by omega)]
      omega)
    hfull 1000 0 rfl (by omega)
  simp only [List.take_zero, List.sum_nil, Nat.sub_zero] at key
  rw [key, List.range_eq_range']
  have e1 : min (maxOcc arr).toNat 999 = (min (maxOcc arr) 999).toNat := by omega
  rw [e1]
  by_cases hc : maxOcc arr ≤ 999
  · rw [if_pos hc, if_pos (by omega)]
  · rw [if_neg hc, if_neg (by omega)]

theorem drawLoop_length (seg : Int) (rnd : Nat → Int) :
    ∀ (n i : Nat) (arr arr' : List Int) (d : Nat),
      drawLoop seg rnd n i arr = (d, .ok arr') → arr'.length = arr.length := by
  intro n
  induction n with
  | zero =>
    intro i arr arr' d h
    simp only [drawLoop, Prod.mk.injEq, Except.ok.injEq] at h
    rw [h.2]
  | succ n ih =>
    intro i arr arr' d h
    unfold drawLoop at h
    split at h
    · simp at h
    · split at h
      · simp at h
      · rename_i arr1 harr1
        obtain ⟨_, _, e1⟩ := incr_ok harr1
        rw [ih _ _ _ _ h, e1, List.length_set]

/-- A call that reports a histogram: the histogram was built from the reported table, which
has at most `asize` entries, and the rows and the outcome are those of the print loop. -/
theorem hashAt_sarr_facts {A seg factor : Int} {rnd : Nat → Int} {sarr : List Int}
    (hA : 0 < A) (hA2 : A < 2 ^ 63) (h : (hashAt A seg factor rnd).sarr = some sarr) :
    ∃ arr, (hashAt A seg factor rnd).arr = some arr ∧ buildHist arr = .ok sarr ∧
      (arr.length : Int) ≤ A ∧
      (hashAt A seg factor rnd).rows = (printLoop sarr arr.length 1000 0 0).1 ∧
      (hashAt A seg factor rnd).outcome = (printLoop sarr arr.length 1000 0 0).2 := by
  obtain ⟨arr0, d, arr, h1, h2, h3⟩ := hashAt_sarr_inv h
  obtain ⟨n, e, hn⟩ := allocArr_ok hA hA2 h1
  have hl := drawLoop_length seg rnd _ _ _ _ _ h2
  refine ⟨arr, ?_, h3, ?_, ?_, ?_⟩
  · rw [hashAt_of_hist h1 h2 h3]
  · rw [hl, e, List.length_replicate]; exact hn
  · rw [hashAt_of_hist h1 h2 h3]
  · rw [hashAt_of_hist h1 h2 h3]

/-! ## Calls that make no draw -/

theorem histLoop_zeros :
    ∀ (k : Nat) (c : Int) (rest : List Int), 0 ≤ c → c + k < 2 ^ 63 →
      histLoop (List.replicate k 0) (c :: rest) = .ok ((c + k) :: rest) := by
  intro k
  induction k with
  | zero => intro c rest _ _; simp [histLoop]
  | succ k ih =>
    intro c rest h0 h1
    have e : incr (c :: rest) 0 = .ok ((c + 1) :: rest) := by
      rw [incr_of_lt (le_refl _) (by simp)]
      simp only [Int.toNat_zero, List.getD_cons_zero, List.set_cons_zero]
      rw [wrap_eq (by omega) (by push_cast at h1; omega)]
    rw [List.replicate_succ]
    unfold histLoop
    simp only [e]
    rw [ih (c + 1) rest (by omega) (by push_cast at h1 ⊢; omega)]
    push_cast
    congr 2
    ring

/-- The histogram of an all-zero table of `n ≥ 1` segments: `n` at index 0, `0` elsewhere. -/
theorem buildHist_zeros (n : Nat) (h0 : 0 < n) (h1 : (n : Int) < 2 ^ 63) :
    buildHist (List.replicate n 0) = .ok ((n : Int) :: List.replicate (n - 1) 0) := by
  unfold buildHist
  rw [make_length]
  simp only [List.length_replicate]
  obtain ⟨m, rfl⟩ : ∃ m, n = m + 1 := ⟨n - 1, by omega⟩
  have := histLoop_zeros (m + 1) 0 (List.replicate m 0) (le_refl _) (by omega)
  rw [List.replicate_succ (n := m)] at this ⊢
  simp only [zero_add, Nat.add_sub_cancel] at this ⊢
  rw [← List.replicate_succ (n := m)]
  exact this

/-- The print loop on a histogram whose entry 0 already accounts for all `n` segments prints
one row and leaves through `break`. -/
theorem printLoop_first_full (n : Nat) (rest : List Int) (h0 : 0 < n)
    (h1 : (n : Int) * 1000 < 2 ^ 63) :
    printLoop ((n : Int) :: rest) n 1000 0 0 = ([⟨0, n, 1000, 1000⟩], .covered) := by
  have hidx : index ((n : Int) :: rest) ((0 : Nat) : Int) = .ok (n : Int) := by
    unfold index
    rw [if_pos ⟨by omega, by simp⟩]
    simp
  have hsum : wrap (0 + (n : Int)) = n := by
    rw [zero_add]; exact wrap_eq (by omega) (by omega)
  have hdiv : (n : Int) * 1000 / n = 1000 := by
    rw [mul_comm]; exact Int.mul_ediv_cancel 1000 (by omega)
  have hrate : goDiv (wrap ((n : Int) * 1000)) n = .ok 1000 := by
    rw [goDiv_nonneg (by omega) h1 (by omega), hdiv]
  have hcum : goDiv (wrap (1000 * (n : Int))) n = .ok 1000 := by
    rw [mul_comm]; exact hrate
  unfold printLoop
  simp only [hidx, hsum, hrate, hcum, if_true]
  rfl

/-- A call with a valid segment size that makes no draw (`dsize ≤ 0`): the table is all
zero, the histogram has the number of segments at index 0, and exactly one row is printed:
occupancy 0, count `numSegments`, rate 1000, cumulative 1000. -/
theorem hash_no_draws {seg factor : Int} (rnd : Nat → Int) (hs : 1 ≤ seg)
    (hsU : seg ≤ 2 ^ 63 - 2 ^ 21) (hd : (dsize asize factor).toNat = 0) :
    hash seg factor rnd =
      ⟨⟨asize, seg, load asize factor⟩, 0,
        some (List.replicate ((asize + seg - 1) / seg).toNat 0),
        some ((asize + seg - 1) / seg :: List.replicate (((asize + seg - 1) / seg).toNat - 1) 0),
        [⟨0, (asize + seg - 1) / seg, 1000, 1000⟩], .covered⟩ := by
  have hA : (0 : Int) < asize := by rw [asize_eq]; omega
  obtain ⟨h1, hq0, hq1⟩ := @allocArr_valid asize seg hA hs (by rw [asize_eq]; omega)
  have h2 : drawLoop seg rnd (dsize asize factor).toNat 0
      (List.replicate ((asize + seg - 1) / seg).toNat 0) =
      (0, .ok (List.replicate ((asize + seg - 1) / seg).toNat 0)) := by
    rw [hd]; rfl
  have hn0 : 0 < ((asize + seg - 1) / seg).toNat := by omega
  have hn1 : ((((asize + seg - 1) / seg).toNat : Nat) : Int) = (asize + seg - 1) / seg := by omega
  have hn2 : (asize + seg - 1) / seg ≤ 2097152 := by rw [asize_eq] at hq1 ⊢; exact hq1
  have h3 := buildHist_zeros ((asize + seg - 1) / seg).toNat hn0 (by omega)
  have h4 := printLoop_first_full ((asize + seg - 1) / seg).toNat
    (List.replicate (((asize + seg - 1) / seg).toNat - 1) 0) hn0 (by omega)
  rw [hn1] at h4
  unfold hash
  rw [hashAt_of_hist h1 h2 h3]
  simp only [List.length_replicate, hn1, h4]

/-! ## The histogram is too short for large occupancies -/

/-- C4 (failing input): `hash(2048, 100)` under round-robin draws `0, 1, ..., asize - 1`.
The table is perfectly uniform, 1024 segments of occupancy 2048, but the histogram has
only 1024 entries, so `sarr[2048] += 1` panics and no histogram and no row is produced. The
spec's own scenario (`asize = 16`, `seg = 4`) fails in the same way at index 4 of 4. -/
theorem uniform_scenario_panics :
    (hash 2048 100 (roundRobin 2097152)).drawn = 2097152 ∧
    (hash 2048 100 (roundRobin 2097152)).arr = some (List.replicate 1024 2048) ∧
    (hash 2048 100 (roundRobin 2097152)).sarr = none ∧
    (hash 2048 100 (roundRobin 2097152)).rows = [] ∧
    (hash 2048 100 (roundRobin 2097152)).outcome = .panic (.indexOutOfRange 2048 1024) ∧
    hashAt 16 4 100 (roundRobin 16) =
      ⟨⟨16, 4, 100⟩, 16, some [4, 4, 4, 4], none, [], .panic (.indexOutOfRange 4 4)⟩ := by
  have hA : (0 : Int) < asize := by rw [asize_eq]; omega
  have hA2 : asize < 2 ^ 63 := by rw [asize_eq]; omega
  have hr : ∀ i, 0 ≤ roundRobin 2097152 i ∧ roundRobin 2097152 i < asize := fun i => by
    have := roundRobin_range 2097152 (by decide) i
    rw [asize_eq]; exact this
  have hn : (dsize asize 100).toNat = 2097152 := by decide
  have hL : (asize + 2048 - 1) / 2048 = 1024 := by decide
  obtain ⟨arr, h1, hlen⟩ := @hashAt_table_total asize 2048 100 (roundRobin 2097152) hA
    (by decide) (by decide) hr
  obtain ⟨r1, _, r3, _⟩ := hashAt_table hA hA2 hr h1
  rw [hL] at hlen
  have hlen2 : arr.length = 1024 := by omega
  have harr : arr = List.replicate 1024 2048 := by
    rw [List.eq_replicate_iff]
    refine ⟨hlen2, ?_⟩
    intro b hb
    obtain ⟨k, hk, e⟩ := mem_getD hb
    have hh := hits_roundRobin 2048 2097152 k (by decide) 2097152 (le_refl _)
    rw [← e, r3 k hk, hn]
    have : hits 2048 (roundRobin 2097152) 2097152 (k : Int) = 2048 := by
      rw [show (2048 : Int) = ((2048 : Nat) : Int) from rfl, hh]
      omega
    rw [this]; rfl
  subst harr
  have hcons : List.replicate 1024 (2048 : Int) = 2048 :: List.replicate 1023 2048 :=
    List.replicate_succ 2048 1023
  rw [hcons] at h1
  obtain ⟨p1, p2, p3⟩ := hashAt_head_panic h1 (by
    simp only [List.length_cons, List.length_replicate]; decide)
  simp only [List.length_cons, List.length_replicate] at p3
  unfold hash
  rw [hcons]
  refine ⟨by rw [r1, hn], h1, p1, p2, p3, by decide⟩

/-- C5 (failing input): a single segment, `hash(asize, 1)`, with every draw equal to `0`.
The table is `[20971]`, the histogram has one entry, and `sarr[20971] += 1` panics: there
is no histogram entry at index `numDraws`. -/
theorem single_segment_panics :
    (hash 2097152 1 (fun _ => 0)).arr = some [20971] ∧
    (hash 2097152 1 (fun _ => 0)).sarr = none ∧
    (hash 2097152 1 (fun _ => 0)).rows = [] ∧
    (hash 2097152 1 (fun _ => 0)).outcome = .panic (.indexOutOfRange 20971 1) := by
  obtain ⟨rest, h1, h2, h3, h4, h5⟩ := @hash_all_zero_panic 2097152 1 (by decide) (by decide)
    (by decide)
  have hd : dsize asize 1 = 20971 := by decide
  have hL : ((asize + 2097152 - 1) / 2097152).toNat = 1 := by decide
  rw [hd] at h1 h5
  rw [hL] at h2 h5
  have hrest : rest = [] := List.eq_nil_of_length_eq_zero (by omega)
  subst hrest
  exact ⟨h1, h3, h4, h5⟩

/-- C9 (failing input): the driver's first call, `hash(16, 90)`, with every draw equal to
`0`. Segment 0 has occupancy 1887436, which is not an index of the histogram of 131072
entries, and the histogram loop panics at its first iteration. -/
theorem driver_pair_hist_out_of_range :
    (∃ rest, (hash 16 90 (fun _ => 0)).arr = some (1887436 :: rest) ∧ rest.length + 1 = 131072) ∧
    (hash 16 90 (fun _ => 0)).sarr = none ∧
    (hash 16 90 (fun _ => 0)).outcome = .panic (.indexOutOfRange 1887436 131072) := by
  obtain ⟨rest, h1, h2, h3, _, h5⟩ := @hash_all_zero_panic 16 90 (by decide) (by decide)
    (by decide)
  have hd : dsize asize 90 = 1887436 := by decide
  have hL : ((asize + 16 - 1) / 16).toNat = 131072 := by decide
  rw [hd] at h1 h5
  rw [hL] at h2 h5
  exact ⟨⟨rest, h1, h2⟩, h3, h5⟩

/-! ## Leaving the print loop through `break` -/

theorem tdiv_mul_self {len : Int} (h0 : 0 ≤ len) (hne : len ≠ 0) :
    Int.tdiv (1000 * len) len = 1000 := by
  rw [Int.tdiv_eq_ediv (by omega) h0]
  exact Int.mul_ediv_cancel 1000 hne

/-- Whenever the print loop leaves through `break`, it has printed at least one row and the
cumulative per-mille value of the last one is `1000 * len / len = 1000`. -/
theorem printLoop_covered (sarr : List Int) (len : Int) (h0 : 0 ≤ len)
    (hL : len * 1000 < 2 ^ 63) :
    ∀ (n i : Nat) (sum : Int) (rows : List Row),
      printLoop sarr len n i sum = (rows, .covered) →
      ∃ init last, rows = init ++ [last] ∧ last.cum = Int.tdiv (1000 * len) len ∧
        last.cum = 1000 := by
  intro n
  induction n with
  | zero => intro i sum rows h; simp [printLoop] at h
  | succ n ih =>
    intro i sum rows h
    unfold printLoop at h
    split at h
    · simp at h
    · rename_i c hc
      simp only at h
      split at h
      · simp at h
      · rename_i rate hrate
        split at h
        · simp at h
        · rename_i cum hcum
          split at h
          · rename_i hfull
            simp only [Prod.mk.injEq, and_true] at h
            obtain ⟨hne, e⟩ := goDiv_ok hcum
            have hw : wrap (1000 * len) = 1000 * len := wrap_eq (by omega) (by omega)
            have hw2 : wrap 1000 = 1000 := by decide
            rw [hfull, hw, tdiv_mul_self h0 hne, hw2] at e
            refine ⟨[], ⟨i, c, rate, cum⟩, by rw [← h]; rfl, ?_, e⟩
            rw [tdiv_mul_self h0 hne]; exact e
          · simp only [Prod.mk.injEq] at h
            obtain ⟨hrows, hout⟩ := h
            obtain ⟨init, last, e1, e2⟩ := ih (i + 1) (wrap (sum + c))
              (printLoop sarr len n (i + 1) (wrap (sum + c))).1 (Prod.ext rfl hout)
            refine ⟨⟨i, c, rate, cum⟩ :: init, last, ?_, e2⟩
            rw [← hrows, e1]; rfl

/-- A call that ends through `break` has built its histogram. -/
theorem hashAt_covered_inv {A seg factor : Int} {rnd : Nat → Int}
    (h : (hashAt A seg factor rnd).outcome = .covered) :
    ∃ sarr, (hashAt A seg factor rnd).sarr = some sarr := by
  unfold hashAt at h ⊢
  cases h1 : allocArr A seg with
  | error p => simp [h1] at h
  | ok arr0 =>
    simp only [h1] at h ⊢
    cases h2 : drawLoop seg rnd (dsize A factor).toNat 0 arr0 with
    | mk d res =>
      cases res with
      | error p => simp [h2] at h
      | ok arr =>
        simp only [h2] at h ⊢
        cases h3 : buildHist arr with
        | error p => simp [h3] at h
        | ok sarr => simp [h3]

/-- C8: for any value `A` of the constant `asize` from 1 up to the source's `2^21` (`hash`
is the case `A = 2^21`): whenever the print loop terminates because the cumulative
count equals the number of segments (`break`), at least one row was printed and the
cumulative per-mille value on the last printed row, `(1000 * sum) / len(arr)` with
truncating division and `sum = len(arr)`, is exactly 1000. -/
theorem covered_last_row_cum (A seg factor : Int) (rnd : Nat → Int)
    (hA : 0 < A) (hA1 : A ≤ asize)
    (h : (hashAt A seg factor rnd).outcome = .covered) :
    ∃ arr init last, (hashAt A seg factor rnd).arr = some arr ∧
      (hashAt A seg factor rnd).rows = init ++ [last] ∧
      last.cum = Int.tdiv (1000 * arr.length) arr.length ∧ last.cum = 1000 := by
  have hA2 : A * 1000 < 2 ^ 63 := by rw [asize_eq] at hA1; omega
  obtain ⟨sarr, h2⟩ := hashAt_covered_inv h
  obtain ⟨arr, h1, _, hlen, hrows, hout⟩ := hashAt_sarr_facts hA (by omega) h2
  rw [hout] at h
  obtain ⟨init, last, e1, e2, e3⟩ := printLoop_covered sarr arr.length (by omega) (by omega)
    1000 0 0 (printLoop sarr arr.length 1000 0 0).1 (Prod.ext rfl h)
  exact ⟨arr, init, last, h1, by rw [hrows, e1], e2, e3⟩

/-- Witness of C8: the driver's segment size with no draw, `hash(16, 0)`, leaves the print
loop through `break` after its first row. -/
theorem covered_last_row_cum_witness :
    ∃ arr init last, (hashAt asize 16 0 (fun _ => 0)).arr = some arr ∧
      (hashAt asize 16 0 (fun _ => 0)).rows = init ++ [last] ∧
      last.cum = Int.tdiv (1000 * arr.length) arr.length ∧ last.cum = 1000 :=
  covered_last_row_cum asize 16 0 (fun _ => 0) (by decide) (by decide) (by
    have := @hash_no_draws 16 0 (fun _ => 0) (by decide) (by decide) (by decide)
    unfold hash at this
    rw [this])

/-! ## Zero load, printed rows, invalid parameters -/

/-- C6 (amended): when `factor` is 0, for every `seg` with `1 ≤ seg ≤ 2^63 - 2^21`, `hash`
makes no draw, every segment has occupancy 0, the histogram has `numSegments = ⌈asize / seg⌉`
at index 0 and 0 at every other index, and exactly one row is printed: occupancy 0, count
`numSegments`, rate 1000, cumulative 1000. -/
theorem zero_load (seg : Int) (rnd : Nat → Int) (hs : 1 ≤ seg) (hsU : seg ≤ 2 ^ 63 - 2 ^ 21) :
    (hash seg 0 rnd).drawn = 0 ∧
    (hash seg 0 rnd).arr = some (List.replicate ⌈(asize : ℚ) / (seg : ℚ)⌉.toNat 0) ∧
    (hash seg 0 rnd).sarr = some (⌈(asize : ℚ) / (seg : ℚ)⌉ ::
      List.replicate (⌈(asize : ℚ) / (seg : ℚ)⌉.toNat - 1) 0) ∧
    (hash seg 0 rnd).rows = [⟨0, ⌈(asize : ℚ) / (seg : ℚ)⌉, 1000, 1000⟩] ∧
    (hash seg 0 rnd).outcome = .covered := by
  rw [hash_no_draws rnd hs hsU (by decide), ceil_div_eq hs]
  exact ⟨rfl, rfl, rfl, rfl, rfl⟩

/-- Witness of C6 at the driver's segment size 16. -/
theorem zero_load_witness :
    (hash 16 0 (roundRobin 2097152)).drawn = 0 ∧
    (hash 16 0 (roundRobin 2097152)).arr =
      some (List.replicate ⌈(asize : ℚ) / ((16 : Int) : ℚ)⌉.toNat 0) ∧
    (hash 16 0 (roundRobin 2097152)).sarr = some (⌈(asize : ℚ) / ((16 : Int) : ℚ)⌉ ::
      List.replicate (⌈(asize : ℚ) / ((16 : Int) : ℚ)⌉.toNat - 1) 0) ∧
    (hash 16 0 (roundRobin 2097152)).rows =
      [⟨0, ⌈(asize : ℚ) / ((16 : Int) : ℚ)⌉, 1000, 1000⟩] ∧
    (hash 16 0 (roundRobin 2097152)).outcome = .covered :=
  zero_load 16 (roundRobin 2097152) (by decide) (by decide)

/-- Counterexample to C6 as stated: with `seg = 2^63 - 1` and `factor = 0` the length
expression `asize + seg - 1` overflows, table and histogram are empty although
`⌈asize / seg⌉ = 1`, and the print loop panics at `sarr[0]` before printing any row. -/
theorem zero_load_counterexample :
    ⌈(asize : ℚ) / ((2 ^ 63 - 1 : Int) : ℚ)⌉ = 1 ∧
    (hash (2 ^ 63 - 1) 0 (fun _ => 0)).sarr = some [] ∧
    (hash (2 ^ 63 - 1) 0 (fun _ => 0)).rows = [] ∧
    (hash (2 ^ 63 - 1) 0 (fun _ => 0)).outcome = .panic (.indexOutOfRange 0 0) ∧
    (hash (2 ^ 63 - 1) 0 (fun _ => 0)).rows ≠
      [⟨0, ⌈(asize : ℚ) / ((2 ^ 63 - 1 : Int) : ℚ)⌉, 1000, 1000⟩] := by
  have e : (hash (2 ^ 63 - 1) 0 (fun _ => 0)).rows = [] := by decide
  refine ⟨by rw [ceil_div_eq (by decide)]; decide, by decide, e, by decide, ?_⟩
  rw [e]
  exact (List.cons_ne_nil _ _).symm

/-- C7 (amended): for any value `A` of the constant `asize` from 1 up to the source's
`2^21` (`hash` is the case `A = 2^21`), for every run in which the histogram is built
without an out-of-range index and the table has at least one segment, the printed rows are
exactly those of the occupancy values `i = 0, 1, ..., min (maxOcc arr) 999` in increasing
order (`rowAt` gives the row of `i`), where `maxOcc arr` is the largest occupancy of any
segment: the cumulative count is below the number of segments before `maxOcc arr` and
equals it there, and the loop leaves through `break` iff `maxOcc arr ≤ 999`, else after the
row of 999. -/
theorem printed_rows (A seg factor : Int) (rnd : Nat → Int) (arr sarr : List Int)
    (hA : 0 < A) (hA1 : A ≤ asize)
    (h1 : (hashAt A seg factor rnd).arr = some arr)
    (h2 : (hashAt A seg factor rnd).sarr = some sarr) (hne : arr ≠ []) :
    (hashAt A seg factor rnd).rows =
      (List.range ((min (maxOcc arr) 999).toNat + 1)).map (rowAt sarr arr.length) ∧
    (hashAt A seg factor rnd).outcome = (if maxOcc arr ≤ 999 then .covered else .limit) ∧
    (∀ j : Nat, (j : Int) < maxOcc arr → (sarr.take (j + 1)).sum < arr.length) ∧
    (sarr.take ((maxOcc arr).toNat + 1)).sum = arr.length := by
  have hA2 : A * 1000 < 2 ^ 63 := by rw [asize_eq] at hA1; omega
  obtain ⟨arr', h1', hb, hlen, hrows, hout⟩ := hashAt_sarr_facts hA (by omega) h2
  rw [h1] at h1'
  injection h1' with h1'
  subst h1'
  obtain ⟨p1, p2, p3⟩ := print_of_hist hne (by omega) hb
  rw [hrows, hout, p1]
  exact ⟨rfl, rfl, p2, p3⟩

/-- Witness of C7, the determinism scenario (4 segments of size 1, draws `[0, 0, 1, 3]`):
the largest occupancy is 2 and the rows of the occupancy values 0, 1, 2 are printed. -/
theorem printed_rows_witness :
    maxOcc [2, 1, 0, 1] = 2 ∧
    (hashAt 4 1 100 fixedDraws).rows =
      [⟨0, 1, 250, 250⟩, ⟨1, 2, 500, 750⟩, ⟨2, 1, 250, 1000⟩] ∧
    ((hashAt 4 1 100 fixedDraws).rows =
      (List.range ((min (maxOcc [2, 1, 0, 1]) 999).toNat + 1)).map
        (rowAt [1, 2, 1, 0] ([2, 1, 0, 1] : List Int).length) ∧
    (hashAt 4 1 100 fixedDraws).outcome =
      (if maxOcc [2, 1, 0, 1] ≤ 999 then .covered else .limit) ∧
    (∀ j : Nat, (j : Int) < maxOcc [2, 1, 0, 1] →
      (([1, 2, 1, 0] : List Int).take (j + 1)).sum < ([2, 1, 0, 1] : List Int).length) ∧
    (([1, 2, 1, 0] : List Int).take ((maxOcc [2, 1, 0, 1]).toNat + 1)).sum =
      ([2, 1, 0, 1] : List Int).length) :=
  ⟨by decide, by decide,
    printed_rows 4 1 100 fixedDraws [2, 1, 0, 1] [1, 2, 1, 0] (by decide) (by decide)
      (by decide) (by decide) (by decide)⟩

/-- Counterexample to C7 as stated: with `seg = 2^63 - 1` and `factor = 0` (also with
`seg = -asize`) the table and the histogram are empty; the histogram is built without an
out-of-range index, yet no row is printed, not even the row of occupancy 0: the print loop
panics at `sarr[0]`. -/
theorem printed_rows_counterexample :
    (hash (2 ^ 63 - 1) 0 (fun _ => 0)).arr = some [] ∧
    (hash (2 ^ 63 - 1) 0 (fun _ => 0)).sarr = some [] ∧
    (hash (2 ^ 63 - 1) 0 (fun _ => 0)).rows ≠
      (List.range ((min (maxOcc []) 999).toNat + 1)).map (rowAt [] ([] : List Int).length) ∧
    (hash (2 ^ 63 - 1) 0 (fun _ => 0)).outcome = .panic (.indexOutOfRange 0 0) ∧
    (hash (-2097152) 0 (fun _ => 0)).sarr = some [] ∧
    (hash (-2097152) 0 (fun _ => 0)).rows = [] := by
  decide

/-- With a negative segment size the length expression is never positive: a table that
gets allocated is empty. -/
theorem allocArr_neg {seg : Int} {arr0 : List Int} (hs : seg < 0)
    (h : allocArr asize seg = .ok arr0) : arr0 = [] := by
  rw [asize_eq] at h
  unfold allocArr at h
  split at h
  · cases h
  · rename_i n hn
    obtain ⟨hne, e⟩ := goDiv_ok hn
    unfold make at h
    split at h
    · cases h
    · rename_i hn0
      injection h with h
      have ht := wrap_bounds (wrap (2097152 + seg) - 1)
      have hq := tdiv_abs_bounds (wrap (wrap (2097152 + seg) - 1)) seg
      have hlow : 2097152 + seg - 1 ≤ wrap (wrap (2097152 + seg) - 1) := by
        unfold wrap; omega
      have hup : Int.tdiv (wrap (wrap (2097152 + seg) - 1)) seg ≤ 0 := by
        apply tdiv_le_of_bounds (le_refl _) _ _ hne
        · intro hpos; omega
        · intro _; omega
      have habs : |wrap (wrap (2097152 + seg) - 1)| ≤ 2 ^ 63 := by
        rw [abs_le]; constructor <;> omega
      have hn : n = 0 := by
        rw [wrap_eq (by omega) (by omega)] at e
        omega
      rw [← h, hn]
      rfl

/-- A call with `seg ≤ 0` ends in a run-time panic before any row is printed; with
`seg = 0` it is the division by zero of the length expression, before any draw. -/
theorem hash_nonpos_seg {seg : Int} (factor : Int) (rnd : Nat → Int) (hs : seg ≤ 0) :
    (hash seg factor rnd).rows = [] ∧
      ∃ p, (hash seg factor rnd).outcome = .panic p ∧
        (seg = 0 → (hash seg factor rnd).drawn = 0 ∧ p = .divideByZero) := by
  unfold hash hashAt
  by_cases h0 : seg = 0
  · have e : allocArr asize seg = .error .divideByZero := by
      unfold allocArr goDiv; rw [if_pos h0]
    rw [e]
    exact ⟨rfl, _, rfl, fun _ => ⟨rfl, rfl⟩⟩
  · cases h1 : allocArr asize seg with
    | error p => exact ⟨rfl, p, rfl, fun h => absurd h h0⟩
    | ok arr0 =>
      have e0 := allocArr_neg (by omega) h1
      subst e0
      cases hn : (dsize asize factor).toNat with
      | zero => exact ⟨rfl, _, rfl, fun h => absurd h h0⟩
      | succ n =>
        have e2 : drawLoop seg rnd (n + 1) 0 [] =
            (1, .error (.indexOutOfRange (wrap (Int.tdiv (rnd 0) seg)) 0)) := by
          unfold drawLoop goDiv
          rw [if_neg h0]
          simp only
          unfold incr
          rw [if_neg (by simp only [List.length_nil, Nat.cast_zero]; omega)]
          rfl
        dsimp only
        rw [e2]
        exact ⟨rfl, _, rfl, fun h => absurd h h0⟩

theorem dsize_neg {factor : Int} (hf : -2 ^ 42 ≤ factor) (hf0 : factor < 0) :
    (dsize asize factor).toNat = 0 := by
  unfold dsize
  rw [asize_eq]
  have h1 : wrap (2097152 * factor) = 2097152 * factor := wrap_eq (by omega) (by omega)
  rw [h1]
  have h2 := tdiv_abs_bounds (2097152 * factor) 100
  have h3 : Int.tdiv (2097152 * factor) 100 ≤ 0 :=
    tdiv_le_of_bounds (le_refl _) (fun _ => by omega) (fun h => by omega) (by decide)
  have h4 : |2097152 * factor| ≤ 2 ^ 63 := by
    rw [abs_le]; constructor <;> omega
  rw [wrap_eq (by omega) (by omega)]
  omega

/-- C10 (amended): `hash` validates nothing. A call with `seg ≤ 0` is not rejected at the
start but ends in a run-time panic after the header line and before any histogram row is
produced; for `seg = 0` the panic is the integer division by zero of the length expression,
before any draw is performed. A negative `factor` is no failure: with
`1 ≤ seg ≤ 2^63 - 2^21` and `-2^42 ≤ factor < 0` the call makes no draw and prints the
single row of occupancy 0 (count `⌈asize / seg⌉`, rate 1000, cumulative 1000). -/
theorem invalid_params (seg factor : Int) (rnd : Nat → Int) :
    (seg ≤ 0 → (hash seg factor rnd).rows = [] ∧
      ∃ p, (hash seg factor rnd).outcome = .panic p ∧
        (seg = 0 → (hash seg factor rnd).drawn = 0 ∧ p = .divideByZero)) ∧
    (1 ≤ seg → seg ≤ 2 ^ 63 - 2 ^ 21 → -2 ^ 42 ≤ factor → factor < 0 →
      (hash seg factor rnd).drawn = 0 ∧
      (hash seg factor rnd).rows = [⟨0, ⌈(asize : ℚ) / (seg : ℚ)⌉, 1000, 1000⟩] ∧
      (hash seg factor rnd).outcome = .covered) := by
  refine ⟨fun hs => hash_nonpos_seg factor rnd hs, ?_⟩
  intro hs hsU hf hf0
  rw [hash_no_draws rnd hs hsU (dsize_neg hf hf0), ceil_div_eq hs]
  exact ⟨rfl, rfl, rfl⟩

/-- Witness of C10: `hash(0, 90)` panics with a division by zero before any draw;
`hash(16, -10)` prints the single row of occupancy 0. -/
theorem invalid_params_witness :
    ((hash 0 90 (roundRobin 2097152)).rows = [] ∧
      ∃ p, (hash 0 90 (roundRobin 2097152)).outcome = .panic p ∧
        ((0 : Int) = 0 → (hash 0 90 (roundRobin 2097152)).drawn = 0 ∧ p = .divideByZero)) ∧
    ((hash 16 (-10) (roundRobin 2097152)).drawn = 0 ∧
      (hash 16 (-10) (roundRobin 2097152)).rows =
        [⟨0, ⌈(asize : ℚ) / ((16 : Int) : ℚ)⌉, 1000, 1000⟩] ∧
      (hash 16 (-10) (roundRobin 2097152)).outcome = .covered) :=
  ⟨(invalid_params 0 90 (roundRobin 2097152)).1 (by decide),
    (invalid_params 16 (-10) (roundRobin 2097152)).2 (by decide) (by decide) (by decide)
      (by decide)⟩

/-- Counterexample to C10 as stated: `hash(asize, -1)` is not rejected, it returns normally
after printing the row `0 1 1000 /1000 1000`; and `hash(-asize, 1)` fails only after a draw
has been made. -/
theorem invalid_params_counterexample :
    hash 2097152 (-1) (fun _ => 0) =
      ⟨⟨2097152, 2097152, 0⟩, 0, some [0], some [1], [⟨0, 1, 1000, 1000⟩], .covered⟩ ∧
    (hash (-2097152) 1 (fun _ => 0)).drawn = 1 ∧
    (hash (-2097152) 1 (fun _ => 0)).outcome = .panic (.indexOutOfRange 0 0) := by
  decide

/-! ## Table length, header, draw indices -/

/-- C12 (amended): for every `seg` with `1 ≤ seg ≤ 2^63 - 2^21`, the length of the segment
occupancy table allocated by `hash`, `(asize + seg - 1) / seg` with truncating division,
equals `⌈asize / seg⌉`, i.e. the least `n` with `n * seg ≥ asize`. -/
theorem table_length_eq_ceil (seg : Int) (hs : 1 ≤ seg) (hsU : seg ≤ 2 ^ 63 - 2 ^ 21) :
    ∃ arr0, allocArr asize seg = .ok arr0 ∧
      (arr0.length : Int) = Int.tdiv (asize + seg - 1) seg ∧
      (arr0.length : Int) = ⌈(asize : ℚ) / (seg : ℚ)⌉ ∧
      asize ≤ (arr0.length : Int) * seg ∧
      ∀ n : Int, asize ≤ n * seg → (arr0.length : Int) ≤ n := by
  have hA : (0 : Int) < asize := by rw [asize_eq]; omega
  obtain ⟨h1, hq0, hq1⟩ := @allocArr_valid asize seg hA hs (by rw [asize_eq]; omega)
  have hlen : (((asize + seg - 1) / seg).toNat : Int) = (asize + seg - 1) / seg := by omega
  have e1 := Int.ediv_mul_le (asize + seg - 1) (b := seg) (by omega)
  have e2 := Int.lt_ediv_add_one_mul_self (asize + seg - 1) (b := seg) (by omega)
  refine ⟨_, h1, ?_, ?_, ?_, ?_⟩
  · rw [List.length_replicate, hlen, Int.tdiv_eq_ediv (by omega) (by omega)]
  · rw [List.length_replicate, hlen, ceil_div_eq hs]
  · rw [List.length_replicate, hlen]
    nlinarith
  · intro n hn
    rw [List.length_replicate, hlen]
    by_contra hc
    have : n ≤ (asize + seg - 1) / seg - 1 := by omega
    nlinarith

/-- Witness of C12 at the driver's segment size 16. -/
theorem table_length_eq_ceil_witness :
    ∃ arr0, allocArr asize 16 = .ok arr0 ∧
      (arr0.length : Int) = Int.tdiv (asize + 16 - 1) 16 ∧
      (arr0.length : Int) = ⌈(asize : ℚ) / ((16 : Int) : ℚ)⌉ ∧
      asize ≤ (arr0.length : Int) * 16 ∧
      ∀ n : Int, asize ≤ n * 16 → (arr0.length : Int) ≤ n :=
  table_length_eq_ceil 16 (by decide) (by decide)

/-- Counterexample to C12 as stated: for `seg = 2^63 - 1` the sum `asize + seg - 1` overflows
the 64-bit `int`, the quotient computed by `hash` is 0 and the allocated table is empty,
while `⌈asize / seg⌉ = 1`. -/
theorem table_length_counterexample :
    allocArr asize (2 ^ 63 - 1) = .ok [] ∧
    goDiv (wrap (wrap (asize + (2 ^ 63 - 1)) - 1)) (2 ^ 63 - 1) = .ok 0 ∧
    ⌈(asize : ℚ) / ((2 ^ 63 - 1 : Int) : ℚ)⌉ = 1 := by
  refine ⟨by rfl, by rfl, ?_⟩
  rw [ceil_div_eq (by decide)]
  decide

theorem hashAt_header (A seg factor : Int) (rnd : Nat → Int) :
    (hashAt A seg factor rnd).header = ⟨A, seg, load A factor⟩ := by
  unfold hashAt
  repeat' split
  all_goals rfl

/-- C13 (amended): for every `factor` with `0 ≤ factor < 2^42` (and every `seg` and random
source), the load value printed in the header line of `hash`, `100 * dsize / asize` with
`dsize = asize * factor / 100` and `asize = 2^21` (all divisions truncating), equals `factor`
when `factor` is a multiple of 25 and `factor - 1` otherwise. -/
theorem header_load (seg factor : Int) (rnd : Nat → Int) (hf : 0 ≤ factor)
    (hfU : factor < 2 ^ 42) :
    (hash seg factor rnd).header.load = if factor % 25 = 0 then factor else factor - 1 := by
  obtain ⟨e, _⟩ := dsize_eq hf hfU
  unfold hash
  rw [hashAt_header]
  show load asize factor = _
  unfold load
  rw [e, asize_eq]
  have ht : Int.tdiv (2097152 * factor) 100 = 2097152 * factor / 100 :=
    Int.tdiv_eq_ediv (by omega) (by omega)
  have h1 : wrap (100 * (2097152 * factor / 100)) = 100 * (2097152 * factor / 100) :=
    wrap_eq (by omega) (by omega)
  have h2 : 100 * (2097152 * factor / 100) / 2097152 =
      if factor % 25 = 0 then factor else factor - 1 := by
    split
    · omega
    · have hne : 25 * (2097152 * factor / 100) ≠ 524288 * factor := by omega
      omega
  rw [ht, h1, Int.tdiv_eq_ediv (by omega) (by omega), h2]
  apply wrap_eq <;> split <;> omega

/-- Witness of C13: the driver's call `hash(16, 90)` reports load 89. -/
theorem header_load_witness :
    (hash 16 90 (roundRobin 2097152)).header.load = 89 ∧
    (hash 16 90 (roundRobin 2097152)).header.load =
      if (90 : Int) % 25 = 0 then 90 else 90 - 1 :=
  ⟨by rw [header_load 16 90 (roundRobin 2097152) (by decide) (by decide)]; decide,
    header_load 16 90 (roundRobin 2097152) (by decide) (by decide)⟩

/-- Counterexample to C13 as stated: for `factor = 2^42` (not a multiple of 25) the product
`asize * factor` overflows the 64-bit `int` and the header reports load `-4398046511103`,
not `2^42 - 1`. -/
theorem header_load_counterexample :
    (hash 2097152 (2 ^ 42) (fun _ => 0)).header.load = -4398046511103 ∧
    (hash 2097152 (2 ^ 42) (fun _ => 0)).header.load ≠
      (if (2 ^ 42 : Int) % 25 = 0 then 2 ^ 42 else 2 ^ 42 - 1) := by
  decide

/-- C15 (amended): for every `seg` with `1 ≤ seg ≤ 2^63 - 2^21` and every draw `d` with
`0 ≤ d < asize`, the index `d / seg` is not negative and strictly less than the table length
`(asize + seg - 1) / seg`, so the draw loop of `hash` never indexes the segment occupancy
table out of bounds: it completes after `dsize` draws. -/
theorem draw_index_in_bounds (seg factor : Int) (rnd : Nat → Int) (hs : 1 ≤ seg)
    (hsU : seg ≤ 2 ^ 63 - 2 ^ 21) (hr : ∀ i, 0 ≤ rnd i ∧ rnd i < asize) :
    (∀ d : Int, 0 ≤ d → d < asize →
      0 ≤ Int.tdiv d seg ∧ Int.tdiv d seg < Int.tdiv (asize + seg - 1) seg) ∧
    ∃ arr, (hash seg factor rnd).arr = some arr ∧
      (arr.length : Int) = Int.tdiv (asize + seg - 1) seg ∧
      (hash seg factor rnd).drawn = (dsize asize factor).toNat := by
  have hA : (0 : Int) < asize := by rw [asize_eq]; omega
  have hA2 : asize < 2 ^ 63 := by rw [asize_eq]; omega
  have ht : Int.tdiv (asize + seg - 1) seg = (asize + seg - 1) / seg :=
    Int.tdiv_eq_ediv (by omega) (by omega)
  constructor
  · intro d hd0 hd
    obtain ⟨a, b, c⟩ := draw_index_lt hs hd0 hd hA2
    rw [ht, Int.tdiv_eq_ediv hd0 (by omega)]
    rw [c] at a b
    exact ⟨a, b⟩
  · obtain ⟨arr, h1, hlen⟩ := hashAt_table_total factor hA hs (by rw [asize_eq]; omega) hr
    obtain ⟨r1, _⟩ := hashAt_table hA hA2 hr h1
    exact ⟨arr, h1, by rw [hlen, ht], r1⟩

/-- Witness of C15 at the driver's first call, `hash(16, 90)`, under round-robin draws. -/
theorem draw_index_in_bounds_witness :
    (∀ d : Int, 0 ≤ d → d < asize →
      0 ≤ Int.tdiv d 16 ∧ Int.tdiv d 16 < Int.tdiv (asize + 16 - 1) 16) ∧
    ∃ arr, (hash 16 90 (roundRobin 2097152)).arr = some arr ∧
      (arr.length : Int) = Int.tdiv (asize + 16 - 1) 16 ∧
      (hash 16 90 (roundRobin 2097152)).drawn = (dsize asize 90).toNat :=
  draw_index_in_bounds 16 90 (roundRobin 2097152) (by decide) (by decide) (fun i => by
    have := roundRobin_range 2097152 (by decide) i
    rw [asize_eq]; exact this)

/-- Counterexample to C15 as stated: for `seg = 2^63 - 1` the length expression overflows and
the table is empty, so the first draw (`0 / seg = 0`) indexes it out of bounds and the draw
loop panics. -/
theorem draw_index_counterexample :
    (hash (2 ^ 63 - 1) 1 (fun _ => 0)).arr = none ∧
    (hash (2 ^ 63 - 1) 1 (fun _ => 0)).drawn = 1 ∧
    (hash (2 ^ 63 - 1) 1 (fun _ => 0)).outcome = .panic (.indexOutOfRange 0 0) := by
  decide

/-! ## The print loop stays inside the histogram -/

/-- C17 (amended): for any value `A` of the constant `asize` from 1 up to the source's
`2^21` (`hash` is the case `A = 2^21`): if the histogram loop completed without an
out-of-range index and the table has at least one segment, the print loop never reads the
histogram out of bounds. It ends without a panic, the rows it printed are those of the
indices `0, ..., min (maxOcc arr) 999`, all below the length of the histogram, and when
there are fewer than 1000 segments the cumulative count reaches the number of segments at
`i = maxOcc arr < numSegments` and the loop breaks there. -/
theorem print_loop_in_bounds (A seg factor : Int) (rnd : Nat → Int) (arr sarr : List Int)
    (hA : 0 < A) (hA1 : A ≤ asize)
    (h1 : (hashAt A seg factor rnd).arr = some arr)
    (h2 : (hashAt A seg factor rnd).sarr = some sarr) (hne : arr ≠ []) :
    (hashAt A seg factor rnd).outcome = (if maxOcc arr ≤ 999 then .covered else .limit) ∧
    0 ≤ maxOcc arr ∧ maxOcc arr < arr.length ∧ sarr.length = arr.length ∧
    (hashAt A seg factor rnd).rows.length = (min (maxOcc arr) 999).toNat + 1 ∧
    (hashAt A seg factor rnd).rows.length ≤ sarr.length ∧
    (sarr.take ((maxOcc arr).toNat + 1)).sum = arr.length ∧
    (arr.length < 1000 → (hashAt A seg factor rnd).outcome = .covered ∧
      (hashAt A seg factor rnd).rows.length = (maxOcc arr).toNat + 1) := by
  have hA2 : A * 1000 < 2 ^ 63 := by rw [asize_eq] at hA1; omega
  obtain ⟨arr', h1', hb, hlen, hrows, hout⟩ := hashAt_sarr_facts hA (by omega) h2
  rw [h1] at h1'
  injection h1' with h1'
  subst h1'
  obtain ⟨p1, _, p3⟩ := print_of_hist hne (by omega) hb
  obtain ⟨b1, _, _, b4⟩ := buildHist_ok (by omega) hb
  have hM := maxOcc_mem arr hne (fun a ha => (b4 a ha).1)
  have hM0 := (b4 _ hM).1
  have hM1 := (b4 _ hM).2
  rw [hrows, hout, p1]
  simp only [List.length_map, List.length_range]
  refine ⟨trivial, hM0, hM1, b1, trivial, by omega, p3, ?_⟩
  intro hsmall
  rw [if_pos (by omega)]
  exact ⟨rfl, by omega⟩

/-- Witness of C17, the determinism scenario: 4 segments (fewer than 1000), largest
occupancy 2, three rows and a `break`. -/
theorem print_loop_in_bounds_witness :
    (hashAt 4 1 100 fixedDraws).outcome =
      (if maxOcc [2, 1, 0, 1] ≤ 999 then .covered else .limit) ∧
    0 ≤ maxOcc [2, 1, 0, 1] ∧ maxOcc [2, 1, 0, 1] < ([2, 1, 0, 1] : List Int).length ∧
    ([1, 2, 1, 0] : List Int).length = ([2, 1, 0, 1] : List Int).length ∧
    (hashAt 4 1 100 fixedDraws).rows.length = (min (maxOcc [2, 1, 0, 1]) 999).toNat + 1 ∧
    (hashAt 4 1 100 fixedDraws).rows.length ≤ ([1, 2, 1, 0] : List Int).length ∧
    (([1, 2, 1, 0] : List Int).take ((maxOcc [2, 1, 0, 1]).toNat + 1)).sum =
      ([2, 1, 0, 1] : List Int).length ∧
    (([2, 1, 0, 1] : List Int).length < 1000 →
      (hashAt 4 1 100 fixedDraws).outcome = .covered ∧
      (hashAt 4 1 100 fixedDraws).rows.length = (maxOcc [2, 1, 0, 1]).toNat + 1) :=
  print_loop_in_bounds 4 1 100 fixedDraws [2, 1, 0, 1] [1, 2, 1, 0] (by decide) (by decide)
    (by decide) (by decide) (by decide)

/-- Counterexample to C17 as stated: with `seg = 2^63 - 1` (or `seg = -asize`) and
`factor = 0` the table is empty, the histogram loop completes without any index, and the
print loop reads `sarr[0]` of the empty histogram: index out of range. -/
theorem print_loop_counterexample :
    (hash (2 ^ 63 - 1) 0 (fun _ => 0)).sarr = some [] ∧
    (hash (2 ^ 63 - 1) 0 (fun _ => 0)).outcome = .panic (.indexOutOfRange 0 0) ∧
    (hash (-2097152) 0 (fun _ => 0)).sarr = some [] ∧
    (hash (-2097152) 0 (fun _ => 0)).outcome = .panic (.indexOutOfRange 0 0) := by
  decide

/-! ## The cumulative per-mille column -/

theorem getElem?_map_range {α : Type} (f : Nat → α) (n j : Nat) (r : α)
    (h : ((List.range n).map f)[j]? = some r) : j < n ∧ r = f j := by
  rw [List.getElem?_map] at h
  by_cases hj : j < n
  · rw [List.getElem?_range hj] at h
    simp at h
    exact ⟨hj, h.symm⟩
  · rw [List.getElem?_eq_none (by simpa using hj)] at h
    simp at h

/-- A call that built no histogram printed no row. -/
theorem hashAt_rows_of_no_hist {A seg factor : Int} {rnd : Nat → Int}
    (h : (hashAt A seg factor rnd).sarr = none) : (hashAt A seg factor rnd).rows = [] := by
  unfold hashAt at h ⊢
  cases h1 : allocArr A seg with
  | error p => rfl
  | ok arr0 =>
    simp only [h1] at h ⊢
    cases h2 : drawLoop seg rnd (dsize A factor).toNat 0 arr0 with
    | mk d res =>
      cases res with
      | error p => rfl
      | ok arr =>
        simp only [h2] at h ⊢
        cases h3 : buildHist arr with
        | error p => rfl
        | ok sarr => simp [h3] at h

/-- The cumulative counts of a histogram built from the table `arr` never decrease and never
exceed the number of segments. -/
theorem cum_mono {arr sarr : List Int} (hlen : (arr.length : Int) < 2 ^ 63)
    (h : buildHist arr = .ok sarr) (i j : Nat) (hij : i ≤ j) (hj : j < arr.length) :
    0 ≤ (sarr.take (i + 1)).sum ∧ (sarr.take (i + 1)).sum ≤ (sarr.take (j + 1)).sum ∧
      (sarr.take (j + 1)).sum ≤ arr.length := by
  obtain ⟨b1, b2, _, b4⟩ := buildHist_ok hlen h
  have hcum := cum_eq_countP arr sarr b1 b2 (fun a ha => (b4 a ha).1)
  rw [hcum i (by omega), hcum j hj]
  have m1 : arr.countP (fun a => decide (a ≤ (i : Int))) ≤
      arr.countP (fun a => decide (a ≤ (j : Int))) :=
    List.countP_mono_left (fun x _ hx => by
      simp only [decide_eq_true_eq] at hx ⊢
      omega)
  have m2 := List.countP_le_length (fun a => decide (a ≤ (j : Int))) (l := arr)
  omega

/-- The cumulative per-mille column of the rows `0, ..., m` of a histogram whose cumulative
counts reach the number of segments `L` first at index `M ≥ m`. -/
theorem rows_cum (sarr : List Int) (L : Int) (M m : Nat) (hL : 0 < L) (hm : m ≤ M)
    (hmono : ∀ i j : Nat, i ≤ j → j ≤ M →
      0 ≤ (sarr.take (i + 1)).sum ∧ (sarr.take (i + 1)).sum ≤ (sarr.take (j + 1)).sum)
    (hbelow : ∀ j : Nat, j < M → (sarr.take (j + 1)).sum < L)
    (hfull : (sarr.take (M + 1)).sum = L) :
    (∀ (i j : Nat) (r1 r2 : Row), i ≤ j →
      ((List.range (m + 1)).map (rowAt sarr L))[i]? = some r1 →
      ((List.range (m + 1)).map (rowAt sarr L))[j]? = some r2 → r1.cum ≤ r2.cum) ∧
    (∀ r ∈ (List.range (m + 1)).map (rowAt sarr L), r.cum ≤ 1000) ∧
    (∀ (j : Nat) (r : Row), ((List.range (m + 1)).map (rowAt sarr L))[j]? = some r →
      ((r.cum = 1000 ↔ (sarr.take (j + 1)).sum = L) ∧
       ((sarr.take (j + 1)).sum = L ↔ j = M))) := by
  have hle : ∀ j : Nat, j ≤ M → (sarr.take (j + 1)).sum ≤ L := by
    intro j hj
    rw [← hfull]
    exact (hmono j M hj (le_refl _)).2
  have hval : ∀ j : Nat, j ≤ M → (rowAt sarr L j).cum ≤ 1000 ∧
      ((rowAt sarr L j).cum = 1000 ↔ (sarr.take (j + 1)).sum = L) := by
    intro j hj
    have h0 := (hmono j j (le_refl _) hj).1
    have h1 := hle j hj
    show 1000 * (sarr.take (j + 1)).sum / L ≤ 1000 ∧
      (1000 * (sarr.take (j + 1)).sum / L = 1000 ↔ (sarr.take (j + 1)).sum = L)
    have hcancel : 1000 * L / L = 1000 := Int.mul_ediv_cancel 1000 (by omega)
    constructor
    · have := Int.ediv_le_ediv hL (show 1000 * (sarr.take (j + 1)).sum ≤ 1000 * L by omega)
      omega
    · constructor
      · intro e
        by_contra hne
        have := Int.ediv_lt_of_lt_mul (a := 1000 * (sarr.take (j + 1)).sum) (b := 1000) hL
          (by omega)
        omega
      · intro e
        rw [e, hcancel]
  refine ⟨?_, ?_, ?_⟩
  · intro i j r1 r2 hij h1 h2
    obtain ⟨hi, e1⟩ := getElem?_map_range _ _ _ _ h1
    obtain ⟨hj, e2⟩ := getElem?_map_range _ _ _ _ h2
    rw [e1, e2]
    show 1000 * (sarr.take (i + 1)).sum / L ≤ 1000 * (sarr.take (j + 1)).sum / L
    have := (hmono i j hij (by omega)).2
    exact Int.ediv_le_ediv hL (by omega)
  · intro r hr
    obtain ⟨j, hj, e⟩ := List.mem_map.mp hr
    rw [List.mem_range] at hj
    rw [← e]
    exact (hval j (by omega)).1
  · intro j r h
    obtain ⟨hj, e⟩ := getElem?_map_range _ _ _ _ h
    rw [e]
    refine ⟨(hval j (by omega)).2, ?_⟩
    constructor
    · intro e2
      by_contra hne
      have := hbelow j (by omega)
      omega
    · intro e2
      rw [e2]; exact hfull

/-- Either a call printed no row, or it built its histogram from a non-empty table. -/
theorem hashAt_rows_cases {A seg factor : Int} {rnd : Nat → Int} (hA : 0 < A)
    (hA2 : A < 2 ^ 63) :
    (hashAt A seg factor rnd).rows = [] ∨
      ∃ arr sarr, (hashAt A seg factor rnd).arr = some arr ∧
        (hashAt A seg factor rnd).sarr = some sarr ∧ arr ≠ [] ∧ buildHist arr = .ok sarr ∧
        (arr.length : Int) ≤ A ∧
        (hashAt A seg factor rnd).rows = (printLoop sarr arr.length 1000 0 0).1 ∧
        (hashAt A seg factor rnd).outcome = (printLoop sarr arr.length 1000 0 0).2 := by
  cases hs : (hashAt A seg factor rnd).sarr with
  | none => exact Or.inl (hashAt_rows_of_no_hist hs)
  | some sarr =>
    obtain ⟨arr, h1, hb, hlen, hrows, hout⟩ := hashAt_sarr_facts hA hA2 hs
    by_cases hne : arr = []
    · left
      subst hne
      obtain ⟨b1, _⟩ := buildHist_ok (by simp) hb
      have : sarr = [] := List.eq_nil_of_length_eq_zero (by simpa using b1)
      subst this
      rw [hrows]
      rfl
    · exact Or.inr ⟨arr, sarr, h1, rfl, hne, hb, hlen, hrows, hout⟩

/-- C14: for any value `A` of the constant `asize` from 1 up to the source's `2^21` (`hash`
is the case `A = 2^21`), across the rows printed by one run the cumulative per-mille column
is non-decreasing and never exceeds 1000, and it equals 1000 on a row if and only if that
row is the last one and the loop left through `break`, which is if and only if the
cumulative count on that row equals the number of segments. -/
theorem cum_column (A seg factor : Int) (rnd : Nat → Int) (hA : 0 < A) (hA1 : A ≤ asize) :
    (∀ (i j : Nat) (r1 r2 : Row), i ≤ j →
      (hashAt A seg factor rnd).rows[i]? = some r1 →
      (hashAt A seg factor rnd).rows[j]? = some r2 → r1.cum ≤ r2.cum) ∧
    (∀ r ∈ (hashAt A seg factor rnd).rows, r.cum ≤ 1000) ∧
    (∀ (j : Nat) (r : Row), (hashAt A seg factor rnd).rows[j]? = some r →
      (r.cum = 1000 ↔ (j + 1 = (hashAt A seg factor rnd).rows.length ∧
        (hashAt A seg factor rnd).outcome = .covered))) ∧
    (∀ arr sarr, (hashAt A seg factor rnd).arr = some arr →
      (hashAt A seg factor rnd).sarr = some sarr →
      ∀ (j : Nat) (r : Row), (hashAt A seg factor rnd).rows[j]? = some r →
        (r.cum = 1000 ↔ (sarr.take (j + 1)).sum = arr.length)) := by
  have hA2 : A * 1000 < 2 ^ 63 := by rw [asize_eq] at hA1; omega
  rcases @hashAt_rows_cases A seg factor rnd hA (show A < 2 ^ 63 by omega) with
    h0 | ⟨arr, sarr, h1, h2, hne, hb, hlen, hrows, hout⟩
  · rw [h0]
    refine ⟨?_, ?_, ?_, ?_⟩
    · intro i j r1 r2 _ h; simp at h
    · intro r hr; simp at hr
    · intro j r h; simp at h
    · intro _ _ _ _ j r h; simp at h
  · obtain ⟨p1, p2, p3⟩ := print_of_hist hne (by omega) hb
    obtain ⟨_, _, _, b4⟩ := buildHist_ok (by omega) hb
    have hM := maxOcc_mem arr hne (fun a ha => (b4 a ha).1)
    have hM0 := (b4 _ hM).1
    have hM1 := (b4 _ hM).2
    have hpos : (0 : Int) < arr.length := by omega
    have hm : (min (maxOcc arr) 999).toNat ≤ (maxOcc arr).toNat := by omega
    obtain ⟨q1, q2, q3⟩ := rows_cum sarr arr.length (maxOcc arr).toNat
      (min (maxOcc arr) 999).toNat hpos hm
      (fun i j hij hj => by
        have := cum_mono (by omega) hb i j hij (by omega)
        exact ⟨this.1, this.2.1⟩)
      (fun j hj => p2 j (by omega)) p3
    rw [hrows, hout, p1]
    simp only [List.length_map, List.length_range]
    refine ⟨q1, q2, ?_, ?_⟩
    · intro j r h
      obtain ⟨hj, _⟩ := getElem?_map_range _ _ _ _ h
      obtain ⟨c1, c2⟩ := q3 j r h
      rw [c1, c2]
      by_cases hc : maxOcc arr ≤ 999
      · rw [if_pos hc]
        constructor
        · intro e; exact ⟨by omega, rfl⟩
        · intro e; omega
      · rw [if_neg hc]
        constructor
        · intro e; omega
        · intro e; exact absurd e.2 (by simp)
    · intro arr' sarr' h1' h2' j r h
      rw [h1] at h1'
      rw [h2] at h2'
      injection h1' with h1'
      injection h2' with h2'
      subst h1' h2'
      exact (q3 j r h).1

/-- Witness of C14, the determinism scenario: the cumulative column is 250, 750, 1000. -/
theorem cum_column_witness :
    (hashAt 4 1 100 fixedDraws).rows.map Row.cum = [250, 750, 1000] ∧
    ((∀ (i j : Nat) (r1 r2 : Row), i ≤ j →
      (hashAt 4 1 100 fixedDraws).rows[i]? = some r1 →
      (hashAt 4 1 100 fixedDraws).rows[j]? = some r2 → r1.cum ≤ r2.cum) ∧
    (∀ r ∈ (hashAt 4 1 100 fixedDraws).rows, r.cum ≤ 1000) ∧
    (∀ (j : Nat) (r : Row), (hashAt 4 1 100 fixedDraws).rows[j]? = some r →
      (r.cum = 1000 ↔ (j + 1 = (hashAt 4 1 100 fixedDraws).rows.length ∧
        (hashAt 4 1 100 fixedDraws).outcome = .covered))) ∧
    (∀ arr sarr, (hashAt 4 1 100 fixedDraws).arr = some arr →
      (hashAt 4 1 100 fixedDraws).sarr = some sarr →
      ∀ (j : Nat) (r : Row), (hashAt 4 1 100 fixedDraws).rows[j]? = some r →
        (r.cum = 1000 ↔ (sarr.take (j + 1)).sum = arr.length))) :=
  ⟨by decide, cum_column 4 1 100 fixedDraws (by decide) (by decide)⟩

/-! ## Fewer draws than segments -/

/-- A table that is allocated non-empty comes from a segment size in the valid range. -/
theorem allocArr_nonempty {seg : Int} {arr0 : List Int} (h : allocArr asize seg = .ok arr0)
    (hne : arr0 ≠ []) : 1 ≤ seg ∧ seg ≤ 2 ^ 63 - 2 ^ 21 := by
  rcases lt_trichotomy seg 0 with hneg | hz | hpos
  · exact absurd (allocArr_neg hneg h) hne
  · subst hz
    have : allocArr asize 0 = .error .divideByZero := by
      unfold allocArr goDiv; rw [if_pos rfl]
    rw [this] at h
    cases h
  · refine ⟨by omega, ?_⟩
    by_contra hbig
    apply hne
    rw [asize_eq] at h
    unfold allocArr at h
    split at h
    · cases h
    · rename_i n hn
      obtain ⟨hs0, e⟩ := goDiv_ok hn
      unfold make at h
      split at h
      · cases h
      · rename_i hn0
        injection h with h
        have ht := wrap_bounds (wrap (2097152 + seg) - 1)
        have hq := tdiv_abs_bounds (wrap (wrap (2097152 + seg) - 1)) seg
        have hlt : wrap (wrap (2097152 + seg) - 1) < seg := by unfold wrap; omega
        have hup : Int.tdiv (wrap (wrap (2097152 + seg) - 1)) seg ≤ 0 := by
          apply tdiv_le_of_bounds (le_refl _) _ _ hs0
          · intro _; omega
          · intro hneg; omega
        have habs : |wrap (wrap (2097152 + seg) - 1)| ≤ 2 ^ 63 := by
          rw [abs_le]; constructor <;> omega
        have hn : n = 0 := by
          rw [wrap_eq (by omega) (by omega)] at e
          omega
        rw [← h, hn]
        rfl

/-- C16 (amended): whenever `factor ≥ -2^42` and `numDraws = asize * factor / 100` is
strictly less than `numSegments = ⌈asize / seg⌉`, then for every sequence of draws in
`[0, asize)` every segment's occupancy is below the histogram length and the histogram loop
of `hash` never indexes out of bounds: whenever the table is computed, the histogram is
built (and for `1 ≤ seg ≤ 2^63 - 2^21` the table is computed). -/
theorem low_load_hist_safe (seg factor : Int) (rnd : Nat → Int) (hf : -2 ^ 42 ≤ factor)
    (hr : ∀ i, 0 ≤ rnd i ∧ rnd i < asize)
    (hlt : Int.tdiv (asize * factor) 100 < ⌈(asize : ℚ) / (seg : ℚ)⌉) :
    (∀ arr, (hash seg factor rnd).arr = some arr →
      (∀ a ∈ arr, 0 ≤ a ∧ a < arr.length) ∧
      ∃ sarr, (hash seg factor rnd).sarr = some sarr ∧ sarr.length = arr.length) ∧
    (1 ≤ seg → seg ≤ 2 ^ 63 - 2 ^ 21 → ∃ arr, (hash seg factor rnd).arr = some arr) := by
  have hA : (0 : Int) < asize := by rw [asize_eq]; omega
  have hA2 : asize < 2 ^ 63 := by rw [asize_eq]; omega
  constructor
  · intro arr h1
    obtain ⟨arr0, d, a1, a2⟩ := hashAt_arr_inv h1
    obtain ⟨_, r2, _, r4, _⟩ := draw_result hA hA2 hr a1 a2
    have hocc : ∀ a ∈ arr, 0 ≤ a ∧ a < arr.length := by
      intro a ha
      obtain ⟨k, hk, e⟩ := mem_getD ha
      have hne : arr0 ≠ [] := by
        intro e0
        have : arr.length = 0 := by rw [r2, e0]; rfl
        omega
      obtain ⟨hs, hsU⟩ := allocArr_nonempty a1 hne
      obtain ⟨v1, _, _⟩ := @allocArr_valid asize seg hA hs (by rw [asize_eq]; omega)
      rw [a1] at v1
      injection v1 with v1
      have hlen : (arr.length : Int) = (asize + seg - 1) / seg := by
        rw [r2, v1, List.length_replicate]
        obtain ⟨_, hq0, _⟩ := @allocArr_valid asize seg hA hs (by rw [asize_eq]; omega)
        omega
      rw [ceil_div_eq hs] at hlt
      have hh := hits_le seg rnd (dsize asize factor).toNat k
      have hd : ((dsize asize factor).toNat : Int) < (asize + seg - 1) / seg := by
        rcases lt_or_le factor 0 with hneg | hpos
        · rw [dsize_neg hf hneg]
          obtain ⟨_, hq0, _⟩ := @allocArr_valid asize seg hA hs (by rw [asize_eq]; omega)
          omega
        · have hfU : factor < 2 ^ 42 := by
            by_contra hc
            have hbig : (2 : Int) ^ 42 ≤ factor := by omega
            obtain ⟨_, _, hq1⟩ := @allocArr_valid asize seg hA hs (by rw [asize_eq]; omega)
            rw [asize_eq] at hlt hq1
            rw [Int.tdiv_eq_ediv (by omega) (by omega)] at hlt
            omega
          obtain ⟨e1, e2⟩ := dsize_eq hpos hfU
          rw [e1, Int.toNat_of_nonneg e2]
          exact hlt
      rw [← e, r4 k hk, hlen]
      omega
    refine ⟨hocc, ?_⟩
    obtain ⟨sarr, h2⟩ := hashAt_hist_total hA hA2 hr h1 (fun a ha => (hocc a ha).2)
    obtain ⟨arr', h1', b1, _⟩ := hashAt_hist hA hA2 hr h2
    unfold hash at h1
    rw [h1] at h1'
    injection h1' with h1'
    subst h1'
    exact ⟨sarr, h2, b1⟩
  · intro hs hsU
    obtain ⟨arr, h1, _⟩ := hashAt_table_total factor hA hs (by rw [asize_eq]; omega) hr
    exact ⟨arr, h1⟩

/-- Witness of C16, the claim's example `seg = 1` at the driver's call `hash(1, 90)`:
1887436 draws, 2097152 segments. -/
theorem low_load_hist_safe_witness :
    (∀ arr, (hash 1 90 (roundRobin 2097152)).arr = some arr →
      (∀ a ∈ arr, 0 ≤ a ∧ a < arr.length) ∧
      ∃ sarr, (hash 1 90 (roundRobin 2097152)).sarr = some sarr ∧
        sarr.length = arr.length) ∧
    ((1 : Int) ≤ 1 → (1 : Int) ≤ 2 ^ 63 - 2 ^ 21 →
      ∃ arr, (hash 1 90 (roundRobin 2097152)).arr = some arr) :=
  low_load_hist_safe 1 90 (roundRobin 2097152) (by decide)
    (fun i => by
      have := roundRobin_range 2097152 (by decide) i
      rw [asize_eq]; exact this)
    (by rw [ceil_div_eq (by decide)]; decide)

/-- Counterexample to C16 as stated: `seg = asize` (one segment) and `factor = -2^42 - 1`.
`asize * factor / 100` is negative, so below `numSegments = 1`, but in the 64-bit `int` the
product wraps to `2^63 - 2^21` and `dsize = 92233720368526786` draws are made; with every
draw equal to `0` the single segment holds them all and `sarr[dsize] += 1` is out of range. -/
theorem low_load_counterexample :
    Int.tdiv (asize * (-2 ^ 42 - 1)) 100 < ⌈(asize : ℚ) / ((2097152 : Int) : ℚ)⌉ ∧
    (hash 2097152 (-2 ^ 42 - 1) (fun _ => 0)).arr = some [92233720368526786] ∧
    (hash 2097152 (-2 ^ 42 - 1) (fun _ => 0)).sarr = none ∧
    (hash 2097152 (-2 ^ 42 - 1) (fun _ => 0)).outcome =
      .panic (.indexOutOfRange 92233720368526786 1) := by
  obtain ⟨rest, h1, h2, h3, _, h5⟩ := @hash_all_zero_panic 2097152 (-2 ^ 42 - 1) (by decide)
    (by decide) (by decide)
  have hd : dsize asize (-2 ^ 42 - 1) = 92233720368526786 := by decide
  have hL : ((asize + 2097152 - 1) / 2097152).toNat = 1 := by decide
  rw [hd] at h1 h5
  rw [hL] at h2 h5
  have hrest : rest = [] := List.eq_nil_of_length_eq_zero (by omega)
  subst hrest
  refine ⟨?_, h1, h3, h5⟩
  rw [ceil_div_eq (by decide)]
  decide

/-! ## The occupancy-weighted sum -/

theorem indicator_sum (a : Int) (ha : 0 ≤ a) :
    ∀ n : Nat, ((List.range n).map (fun (j : Nat) => if a = (j : Int) then (j : Int) else 0)).sum =
      if a < n then a else 0 := by
  intro n
  induction n with
  | zero => simp; omega
  | succ n ih =>
    rw [List.range_succ, List.map_append, List.sum_append, ih]
    simp only [List.map_cons, List.map_nil, List.sum_cons, List.sum_nil, add_zero]
    push_cast
    split <;> split <;> split <;> omega

/-- The occupancy-weighted count of a table with entries in `[0, n)` is the sum of the table. -/
theorem weighted_count (n : Nat) :
    ∀ arr : List Int, (∀ a ∈ arr, 0 ≤ a ∧ a < n) →
      ((List.range n).map (fun (j : Nat) => (j : Int) * (arr.count (j : Int) : Int))).sum =
        arr.sum := by
  intro arr
  induction arr with
  | nil => intro _; simp
  | cons a l ih =>
    intro h
    have ha := h a (List.mem_cons_self _ _)
    have e : (fun (j : Nat) => (j : Int) * ((a :: l).count (j : Int) : Int)) =
        (fun (j : Nat) => (j : Int) * (l.count (j : Int) : Int) +
          (if a = (j : Int) then (j : Int) else 0)) := by
      funext j
      rw [List.count_cons]
      by_cases hc : a = (j : Int)
      · simp [hc]; ring
      · simp [hc]
    rw [e, List.sum_map_add, ih (fun x hx => h x (List.mem_cons_of_mem _ hx)),
      indicator_sum a ha.1 n, if_pos ha.2, List.sum_cons]
    ring

theorem dsize_eq_of_le {A factor : Int} (hA : 0 < A) (hA1 : A ≤ asize) (hf : 0 ≤ factor)
    (hfU : factor < 2 ^ 42) :
    dsize A factor = Int.tdiv (A * factor) 100 ∧ 0 ≤ Int.tdiv (A * factor) 100 := by
  rw [asize_eq] at hA1
  have h0 : 0 ≤ A * factor := mul_nonneg (by omega) hf
  have h1 : A * factor ≤ 2097152 * factor := mul_le_mul_of_nonneg_right hA1 hf
  have hw : wrap (A * factor) = A * factor := wrap_eq (by omega) (by omega)
  have h2 := tdiv_bounds (a := A * factor) 100 h0
  unfold dsize
  rw [hw]
  exact ⟨wrap_eq (by omega) (by omega), by
    rw [Int.tdiv_eq_ediv h0 (by omega)]; exact Int.ediv_nonneg h0 (by omega)⟩

/-- C18 (amended): for any value `A` of the constant `asize` from 1 up to the source's
`2^21` (`hash` is the case `A = 2^21`), for every run in which the histogram is built
without an out-of-range index, the occupancy-weighted sum of the histogram, the sum over `i`
of `i * histogram[i]`, equals the number of draws performed; for `0 ≤ factor < 2^42` that
number is `numDraws = asize * factor / 100`. -/
theorem weighted_sum_eq_draws (A seg factor : Int) (rnd : Nat → Int) (sarr : List Int)
    (hA : 0 < A) (hA1 : A ≤ asize) (hr : ∀ i, 0 ≤ rnd i ∧ rnd i < A)
    (h2 : (hashAt A seg factor rnd).sarr = some sarr) :
    weighted sarr = ((hashAt A seg factor rnd).drawn : Int) ∧
    (hashAt A seg factor rnd).drawn = (dsize A factor).toNat ∧
    (0 ≤ factor → factor < 2 ^ 42 → weighted sarr = Int.tdiv (A * factor) 100) := by
  have hA2 : A < 2 ^ 63 := by rw [asize_eq] at hA1; omega
  obtain ⟨arr, h1, b1, b2, _, b4, _⟩ := hashAt_hist hA hA2 hr h2
  obtain ⟨r1, _, _, r4⟩ := hashAt_table hA hA2 hr h1
  have hw : weighted sarr = arr.sum := by
    unfold weighted
    rw [b1, ← weighted_count arr.length arr b4]
    congr 1
    apply List.map_congr_left
    intro j hj
    rw [List.mem_range] at hj
    rw [b2 j hj]
  refine ⟨by rw [hw, r4, r1], r1, ?_⟩
  intro hf hfU
  obtain ⟨e1, e2⟩ := dsize_eq_of_le hA hA1 hf hfU
  rw [hw, r4, e1, Int.toNat_of_nonneg e2]

/-- Witness of C18, the determinism scenario: histogram `[1, 2, 1, 0]`, weighted sum
`0 * 1 + 1 * 2 + 2 * 1 + 3 * 0 = 4`, the number of draws. -/
theorem weighted_sum_eq_draws_witness :
    weighted [1, 2, 1, 0] = 4 ∧
    (weighted [1, 2, 1, 0] = ((hashAt 4 1 100 fixedDraws).drawn : Int) ∧
    (hashAt 4 1 100 fixedDraws).drawn = (dsize 4 100).toNat ∧
    ((0 : Int) ≤ 100 → (100 : Int) < 2 ^ 42 →
      weighted [1, 2, 1, 0] = Int.tdiv (4 * 100) 100)) :=
  ⟨by decide,
    weighted_sum_eq_draws 4 1 100 fixedDraws [1, 2, 1, 0] (by decide) (by decide)
      (fun i => by
        unfold fixedDraws
        rcases i with _ | _ | _ | _ | i <;> simp)
      (by decide)⟩

/-- Counterexample to C18 as stated: `hash(asize, -1)` and `hash(asize, 2^42)` make no draw
and build the histogram `[1]`, whose weighted sum is `0`, while `asize * factor / 100` is
`-20971` and `92233720368547758`. -/
theorem weighted_sum_counterexample :
    (hash 2097152 (-1) (fun _ => 0)).sarr = some [1] ∧
    (hash 2097152 (-1) (fun _ => 0)).drawn = 0 ∧
    weighted [1] ≠ Int.tdiv (asize * (-1)) 100 ∧
    (hash 2097152 (2 ^ 42) (fun _ => 0)).sarr = some [1] ∧
    (hash 2097152 (2 ^ 42) (fun _ => 0)).drawn = 0 ∧
    weighted [1] ≠ Int.tdiv (asize * 2 ^ 42) 100 := by
  decide

/-! ## The driver -/

theorem sweepA_ok (rnd : Nat → Nat → Int) (fuel : Nat) {i : Int} (k : Nat) (h : i > 0)
    (hp : panicked (hash i 90 (rnd k)) = false) :
    sweepA rnd (fuel + 1) i k =
      (sweepA rnd fuel (wrap (Int.tdiv i 2)) (k + 1)).map
        (fun res => ((i, 90, hash i 90 (rnd k)) :: res.1, res.2)) := by
  rw [sweepA, if_pos h, hp]
  rfl

theorem sweepA_abort (rnd : Nat → Nat → Int) (fuel : Nat) {i : Int} (k : Nat) (h : i > 0)
    (hp : panicked (hash i 90 (rnd k)) = true) :
    sweepA rnd (fuel + 1) i k = some ([(i, 90, hash i 90 (rnd k))], false) := by
  rw [sweepA, if_pos h, if_pos hp]

theorem sweepA_end (rnd : Nat → Nat → Int) (fuel : Nat) {i : Int} (k : Nat) (h : ¬ i > 0) :
    sweepA rnd (fuel + 1) i k = some ([], true) := by
  rw [sweepA, if_neg h]

theorem sweepB_ok (rnd : Nat → Nat → Int) (fuel : Nat) {f : Int} (k : Nat) (h : f > 30)
    (hp : panicked (hash 16 f (rnd k)) = false) :
    sweepB rnd (fuel + 1) f k =
      (sweepB rnd fuel (wrap (f - 10)) (k + 1)).map
        (fun res => ((16, f, hash 16 f (rnd k)) :: res.1, res.2)) := by
  rw [sweepB, if_pos h, hp]
  rfl

theorem sweepB_abort (rnd : Nat → Nat → Int) (fuel : Nat) {f : Int} (k : Nat) (h : f > 30)
    (hp : panicked (hash 16 f (rnd k)) = true) :
    sweepB rnd (fuel + 1) f k = some ([(16, f, hash 16 f (rnd k))], false) := by
  rw [sweepB, if_pos h, if_pos hp]

theorem sweepB_end (rnd : Nat → Nat → Int) (fuel : Nat) {f : Int} (k : Nat) (h : ¬ f > 30) :
    sweepB rnd (fuel + 1) f k = some ([], true) := by
  rw [sweepB, if_neg h]

theorem issues_cons (rnd : Nat → Nat → Int) (k : Nat) (p : Int × Int) (tail : List (Int × Int))
    (rest : Option (List (Int × Int × Run) × Bool)) (hrest : Issues rnd (k + 1) tail rest) :
    Issues rnd k (p :: tail)
        (some ([(p.1, p.2, hash p.1 p.2 (rnd k))], false)) ∧
      Issues rnd k (p :: tail)
        (rest.map (fun res => ((p.1, p.2, hash p.1 p.2 (rnd k)) :: res.1, res.2))) := by
  constructor
  · refine ⟨_, _, rfl, ?_, ?_, ?_⟩
    · exact (List.prefix_cons_inj p).mpr List.nil_prefix
    · intro h; cases h
    · intro j c hc
      cases j with
      | zero =>
        simp only [List.getElem?_cons_zero, Option.some.injEq] at hc
        rw [← hc]; rfl
      | succ j => simp at hc
  · obtain ⟨runs, done, e, hpre, hdone, hruns⟩ := hrest
    refine ⟨(p.1, p.2, hash p.1 p.2 (rnd k)) :: runs, done, by rw [e]; rfl, ?_, ?_, ?_⟩
    · exact (List.prefix_cons_inj p).mpr hpre
    · intro h
      show p :: callArgs runs = p :: tail
      rw [hdone h]
    · intro j c hc
      cases j with
      | zero =>
        simp only [List.getElem?_cons_zero, Option.some.injEq] at hc
        rw [← hc]; rfl
      | succ j =>
        rw [List.getElem?_cons_succ] at hc
        have := hruns j c hc
        have e : k + 1 + j = k + (j + 1) := by omega
        rw [e] at this
        exact this

theorem issues_nil (rnd : Nat → Nat → Int) (k : Nat) : Issues rnd k [] (some ([], true)) :=
  ⟨[], true, rfl, List.prefix_rfl, fun _ => rfl, fun j c hc => by simp at hc⟩

/-- One iteration of the first loop: it makes the call `hash(i, 90)` and either is aborted
or goes on with `i / 2`. -/
theorem issues_sweepA (rnd : Nat → Nat → Int) (fuel : Nat) {i : Int} (k : Nat)
    (tail : List (Int × Int)) (h : i > 0)
    (hrest : Issues rnd (k + 1) tail (sweepA rnd fuel (wrap (Int.tdiv i 2)) (k + 1))) :
    Issues rnd k ((i, 90) :: tail) (sweepA rnd (fuel + 1) i k) := by
  obtain ⟨h1, h2⟩ := issues_cons rnd k (i, 90) tail _ hrest
  by_cases hp : panicked (hash i 90 (rnd k)) = true
  · rw [sweepA_abort rnd fuel k h hp]; exact h1
  · rw [sweepA_ok rnd fuel k h (by simpa using hp)]; exact h2

/-- One iteration of the second loop. -/
theorem issues_sweepB (rnd : Nat → Nat → Int) (fuel : Nat) {f : Int} (k : Nat)
    (tail : List (Int × Int)) (h : f > 30)
    (hrest : Issues rnd (k + 1) tail (sweepB rnd fuel (wrap (f - 10)) (k + 1))) :
    Issues rnd k ((16, f) :: tail) (sweepB rnd (fuel + 1) f k) := by
  obtain ⟨h1, h2⟩ := issues_cons rnd k (16, f) tail _ hrest
  by_cases hp : panicked (hash 16 f (rnd k)) = true
  · rw [sweepB_abort rnd fuel k h hp]; exact h1
  · rw [sweepB_ok rnd fuel k h (by simpa using hp)]; exact h2

theorem halving : wrap (Int.tdiv 16 2) = 8 ∧ wrap (Int.tdiv 8 2) = 4 ∧ wrap (Int.tdiv 4 2) = 2 ∧
    wrap (Int.tdiv 2 2) = 1 ∧ wrap (Int.tdiv 1 2) = 0 := by decide

theorem stepping : wrap (90 - 10) = 80 ∧ wrap (80 - 10) = 70 ∧ wrap (70 - 10) = 60 ∧
    wrap (60 - 10) = 50 ∧ wrap (50 - 10) = 40 ∧ wrap (40 - 10) = 30 := by decide

/-- The first loop terminates after six evaluations of `i > 0`; its calls are an initial
part of (16,90), (8,90), (4,90), (2,90), (1,90). -/
theorem issues_sweepA_16 (rnd : Nat → Nat → Int) (n k : Nat) :
    Issues rnd k [(16, 90), (8, 90), (4, 90), (2, 90), (1, 90)] (sweepA rnd (n + 6) 16 k) := by
  obtain ⟨a1, a2, a3, a4, a5⟩ := halving
  apply issues_sweepA rnd (n + 5) k _ (by decide)
  rw [a1]
  apply issues_sweepA rnd (n + 4) (k + 1) _ (by decide)
  rw [a2]
  apply issues_sweepA rnd (n + 3) (k + 1 + 1) _ (by decide)
  rw [a3]
  apply issues_sweepA rnd (n + 2) (k + 1 + 1 + 1) _ (by decide)
  rw [a4]
  apply issues_sweepA rnd (n + 1) (k + 1 + 1 + 1 + 1) _ (by decide)
  rw [a5, sweepA_end rnd n _ (by decide)]
  exact issues_nil rnd _

/-- The second loop terminates after seven evaluations of `f > 30`; its calls are an initial
part of (16,90), (16,80), (16,70), (16,60), (16,50), (16,40). -/
theorem issues_sweepB_90 (rnd : Nat → Nat → Int) (n k : Nat) :
    Issues rnd k [(16, 90), (16, 80), (16, 70), (16, 60), (16, 50), (16, 40)]
      (sweepB rnd (n + 7) 90 k) := by
  obtain ⟨b1, b2, b3, b4, b5, b6⟩ := stepping
  apply issues_sweepB rnd (n + 6) k _ (by decide)
  rw [b1]
  apply issues_sweepB rnd (n + 5) (k + 1) _ (by decide)
  rw [b2]
  apply issues_sweepB rnd (n + 4) (k + 1 + 1) _ (by decide)
  rw [b3]
  apply issues_sweepB rnd (n + 3) (k + 1 + 1 + 1) _ (by decide)
  rw [b4]
  apply issues_sweepB rnd (n + 2) (k + 1 + 1 + 1 + 1) _ (by decide)
  rw [b5]
  apply issues_sweepB rnd (n + 1) (k + 1 + 1 + 1 + 1 + 1) _ (by decide)
  rw [b6, sweepB_end rnd n _ (by decide)]
  exact issues_nil rnd _

theorem callArgs_length (runs : List (Int × Int × Run)) : (callArgs runs).length = runs.length := by
  unfold callArgs
  rw [List.length_map]

theorem callArgs_append (a b : List (Int × Int × Run)) :
    callArgs (a ++ b) = callArgs a ++ callArgs b := by
  unfold callArgs
  rw [List.map_append]

/-- The two loops in sequence: `main` terminates, and its calls are an initial part of the
calls of the first loop followed by those of the second. -/
theorem issues_main (rnd : Nat → Nat → Int) (fuel : Nat) (expA expB : List (Int × Int))
    (hA : Issues rnd 0 expA (sweepA rnd fuel 16 0))
    (hB : Issues rnd expA.length expB (sweepB rnd fuel 90 expA.length)) :
    Issues rnd 0 (expA ++ expB) (main rnd fuel) := by
  obtain ⟨a, doneA, eA, preA, fullA, runsA⟩ := hA
  unfold main
  rw [eA]
  cases doneA with
  | false =>
    refine ⟨a, false, rfl, preA.trans (List.prefix_append _ _), ?_, runsA⟩
    intro h; cases h
  | true =>
    have hargs := fullA rfl
    have hlen : a.length = expA.length := by rw [← callArgs_length, hargs]
    obtain ⟨b, doneB, eB, preB, fullB, runsB⟩ := hB
    simp only [hlen, eB]
    refine ⟨a ++ b, doneB, rfl, ?_, ?_, ?_⟩
    · rw [callArgs_append, hargs]
      exact (List.prefix_append_right_inj expA).mpr preB
    · intro h
      rw [callArgs_append, hargs, fullB h]
    · intro j c hc
      rcases Nat.lt_or_ge j a.length with hj | hj
      · rw [List.getElem?_append_left hj] at hc
        exact runsA j c hc
      · rw [List.getElem?_append_right hj] at hc
        have := runsB (j - a.length) c hc
        have e : expA.length + (j - a.length) = 0 + j := by omega
        rw [e] at this
        exact this

/-- When none of its eleven calls panics, `main` returns. -/
theorem main_returns (rnd : Nat → Nat → Int) (n : Nat)
    (p0 : panicked (hash 16 90 (rnd 0)) = false) (p1 : panicked (hash 8 90 (rnd 1)) = false)
    (p2 : panicked (hash 4 90 (rnd 2)) = false) (p3 : panicked (hash 2 90 (rnd 3)) = false)
    (p4 : panicked (hash 1 90 (rnd 4)) = false) (p5 : panicked (hash 16 90 (rnd 5)) = false)
    (p6 : panicked (hash 16 80 (rnd 6)) = false) (p7 : panicked (hash 16 70 (rnd 7)) = false)
    (p8 : panicked (hash 16 60 (rnd 8)) = false) (p9 : panicked (hash 16 50 (rnd 9)) = false)
    (p10 : panicked (hash 16 40 (rnd 10)) = false) :
    ∃ runs, main rnd (n + 7) = some (runs, true) := by
  obtain ⟨a1, a2, a3, a4, a5⟩ := halving
  obtain ⟨b1, b2, b3, b4, b5, b6⟩ := stepping
  have eA : ∃ a, sweepA rnd (n + 7) 16 0 = some (a, true) ∧ a.length = 5 := by
    rw [sweepA_ok rnd (n + 6) 0 (by decide) p0, a1,
      sweepA_ok rnd (n + 5) 1 (by decide) p1, a2,
      sweepA_ok rnd (n + 4) 2 (by decide) p2, a3,
      sweepA_ok rnd (n + 3) 3 (by decide) p3, a4,
      sweepA_ok rnd (n + 2) 4 (by decide) p4, a5, sweepA_end rnd (n + 1) _ (by decide)]
    exact ⟨_, rfl, rfl⟩
  have eB : ∃ b, sweepB rnd (n + 7) 90 5 = some (b, true) := by
    rw [sweepB_ok rnd (n + 6) 5 (by decide) p5, b1,
      sweepB_ok rnd (n + 5) 6 (by decide) p6, b2,
      sweepB_ok rnd (n + 4) 7 (by decide) p7, b3,
      sweepB_ok rnd (n + 3) 8 (by decide) p8, b4,
      sweepB_ok rnd (n + 2) 9 (by decide) p9, b5,
      sweepB_ok rnd (n + 1) 10 (by decide) p10, b6, sweepB_end rnd n _ (by decide)]
    exact ⟨_, rfl⟩
  obtain ⟨a, ha, hl⟩ := eA
  obtain ⟨b, hb⟩ := eB
  unfold main
  rw [ha]
  simp only [hl, hb]
  exact ⟨_, rfl⟩

/-- Under round-robin draws a call with a small segment size is not aborted: no segment
receives more than `s` draws, so the histogram is built and the print loop stays inside it. -/
theorem roundRobin_not_panicked (s : Nat) (factor : Int) (hs : 0 < s)
    (hsU : (s : Int) ≤ 2 ^ 63 - 2 ^ 21) (hn : (dsize asize factor).toNat ≤ 2097152)
    (hL : (s : Int) < (asize + s - 1) / s) :
    panicked (hash (s : Int) factor (roundRobin 2097152)) = false := by
  have hA : (0 : Int) < asize := by rw [asize_eq]; omega
  have hA2 : asize < 2 ^ 63 := by rw [asize_eq]; omega
  have hr : ∀ i, 0 ≤ roundRobin 2097152 i ∧ roundRobin 2097152 i < asize := fun i => by
    have := roundRobin_range 2097152 (by decide) i
    rw [asize_eq]; exact this
  obtain ⟨arr, h1, hlen⟩ := @hashAt_table_total asize (s : Int) factor (roundRobin 2097152) hA
    (by omega) (by rw [asize_eq]; omega) hr
  have hocc := roundRobin_occ_le s hs factor hn arr h1
  obtain ⟨sarr, h2⟩ := hashAt_hist_total hA hA2 hr h1 (fun a ha => by
    have := hocc a ha
    omega)
  obtain ⟨arr', h1', hb, hlenA, _, hout⟩ := hashAt_sarr_facts hA hA2 h2
  rw [h1] at h1'
  injection h1' with h1'
  subst h1'
  have hne : arr ≠ [] := by
    intro e
    rw [e] at hlen
    simp at hlen
    omega
  rw [asize_eq] at hlenA
  obtain ⟨p1, _⟩ := print_of_hist hne (by omega) hb
  unfold panicked hash
  rw [hout, p1]
  by_cases hc : maxOcc arr ≤ 999
  · rw [if_pos hc]
  · rw [if_neg hc]

theorem allZero_apply (k : Nat) : allZero k = fun _ => 0 := rfl

theorem panicked_of_panic {r : Run} {p : Panic} (h : r.outcome = .panic p) :
    panicked r = true := by
  unfold panicked
  rw [h]

theorem allZero_panicked : panicked (hash 16 90 (allZero 0)) = true := by
  obtain ⟨_, _, _, _, _, h5⟩ := @hash_all_zero_panic 16 90 (by decide) (by decide) (by decide)
  rw [allZero_apply]
  exact panicked_of_panic h5

/-- C11 (amended): for every family of random sources `main` terminates (seven evaluations
of each loop condition suffice): the calls of `hash` it has made are an initial part of
(16,90), (8,90), (4,90), (2,90), (1,90), (16,90), (16,80), (16,70), (16,60), (16,50),
(16,40), each one the run of `hash` on its arguments under its own random source. When none
of these calls panics, `main` returns after invoking `hash` exactly 11 times, in this
order. -/
theorem main_calls (rnd : Nat → Nat → Int) :
    (∀ n, ∃ runs done, main rnd (n + 7) = some (runs, done) ∧
      callArgs runs <+: expectedCalls ∧ (done = true → callArgs runs = expectedCalls) ∧
      ∀ (j : Nat) (c : Int × Int × Run), runs[j]? = some c →
        c.2.2 = hash c.1 c.2.1 (rnd j)) ∧
    ((∀ (k : Nat) (p : Int × Int), expectedCalls[k]? = some p →
        panicked (hash p.1 p.2 (rnd k)) = false) →
      ∀ n, ∃ runs, main rnd (n + 7) = some (runs, true) ∧
        callArgs runs = expectedCalls ∧ runs.length = 11 ∧
        ∀ (j : Nat) (c : Int × Int × Run), runs[j]? = some c →
          c.2.2 = hash c.1 c.2.1 (rnd j)) := by
  have hI : ∀ n, Issues rnd 0 expectedCalls (main rnd (n + 7)) := fun n =>
    issues_main rnd (n + 7) [(16, 90), (8, 90), (4, 90), (2, 90), (1, 90)]
      [(16, 90), (16, 80), (16, 70), (16, 60), (16, 50), (16, 40)]
      (issues_sweepA_16 rnd (n + 1) 0) (issues_sweepB_90 rnd n 5)
  refine ⟨fun n => ?_, ?_⟩
  · obtain ⟨runs, done, e, pre, full, hruns⟩ := hI n
    refine ⟨runs, done, e, pre, full, fun j c hc => ?_⟩
    have := hruns j c hc
    rw [Nat.zero_add] at this
    exact this
  intro hok n
  obtain ⟨runs', e'⟩ := main_returns rnd n (hok 0 (16, 90) rfl) (hok 1 (8, 90) rfl)
    (hok 2 (4, 90) rfl) (hok 3 (2, 90) rfl) (hok 4 (1, 90) rfl) (hok 5 (16, 90) rfl)
    (hok 6 (16, 80) rfl) (hok 7 (16, 70) rfl) (hok 8 (16, 60) rfl) (hok 9 (16, 50) rfl)
    (hok 10 (16, 40) rfl)
  obtain ⟨runs, done, e, _, full, hruns⟩ := hI n
  rw [e'] at e
  simp only [Option.some.injEq, Prod.mk.injEq] at e
  obtain ⟨e1, e2⟩ := e
  subst e1
  have hargs := full e2.symm
  refine ⟨runs', e', hargs, ?_, ?_⟩
  · rw [← callArgs_length, hargs]; rfl
  · intro j c hc
    have := hruns j c hc
    rw [Nat.zero_add] at this
    exact this

/-- Witness of C11: under round-robin draws in every call no segment receives more than 16
draws, no call panics, and `main` returns after its eleven calls. -/
theorem main_calls_witness :
    ∀ n, ∃ runs, main (fun _ => roundRobin 2097152) (n + 7) = some (runs, true) ∧
      callArgs runs = expectedCalls ∧ runs.length = 11 ∧
      ∀ (j : Nat) (c : Int × Int × Run), runs[j]? = some c →
        c.2.2 = hash c.1 c.2.1 (roundRobin 2097152) :=
  (main_calls (fun _ => roundRobin 2097152)).2 (fun k p hk => by
    obtain ⟨hlt, e⟩ := List.getElem?_eq_some.mp hk
    have hmem : p ∈ expectedCalls := e ▸ List.getElem_mem hlt
    simp only [expectedCalls, List.mem_cons, List.mem_singleton, List.not_mem_nil,
      or_false] at hmem
    rcases hmem with h | h | h | h | h | h | h | h | h | h | h <;> subst h
    · exact roundRobin_not_panicked 16 90 (by decide) (by decide) (by decide) (by decide)
    · exact roundRobin_not_panicked 8 90 (by decide) (by decide) (by decide) (by decide)
    · exact roundRobin_not_panicked 4 90 (by decide) (by decide) (by decide) (by decide)
    · exact roundRobin_not_panicked 2 90 (by decide) (by decide) (by decide) (by decide)
    · exact roundRobin_not_panicked 1 90 (by decide) (by decide) (by decide) (by decide)
    · exact roundRobin_not_panicked 16 90 (by decide) (by decide) (by decide) (by decide)
    · exact roundRobin_not_panicked 16 80 (by decide) (by decide) (by decide) (by decide)
    · exact roundRobin_not_panicked 16 70 (by decide) (by decide) (by decide) (by decide)
    · exact roundRobin_not_panicked 16 60 (by decide) (by decide) (by decide) (by decide)
    · exact roundRobin_not_panicked 16 50 (by decide) (by decide) (by decide) (by decide)
    · exact roundRobin_not_panicked 16 40 (by decide) (by decide) (by decide) (by decide))

/-- When the first loop is aborted, so is `main`, with the calls made so far. -/
theorem main_of_abort (rnd : Nat → Nat → Int) (fuel : Nat) (a : List (Int × Int × Run))
    (h : sweepA rnd fuel 16 0 = some (a, false)) : main rnd fuel = some (a, false) := by
  unfold main
  rw [h]

theorem main_no_fuel (rnd : Nat → Nat → Int) : main rnd 0 = none := rfl

/-- Counterexample to C11 as stated: when every draw is `0`, the first call `hash(16, 90)`
panics in its histogram loop, the process is aborted, and `main` has invoked `hash` once,
not 11 times; with no amount of fuel does `main` return. -/
theorem main_calls_counterexample :
    main allZero 7 = some ([(16, 90, hash 16 90 (allZero 0))], false) ∧
    callArgs [(16, 90, hash 16 90 (allZero 0))] = [(16, 90)] ∧
    ¬ ∃ n runs, main allZero n = some (runs, true) := by
  have e : ∀ n, main allZero (n + 1) =
      some ([(16, 90, hash 16 90 (allZero 0))], false) := fun n =>
    main_of_abort allZero (n + 1) _
      (sweepA_abort allZero n 0 (by decide) allZero_panicked)
  refine ⟨e 6, rfl, ?_⟩
  rintro ⟨n, runs, h⟩
  cases n with
  | zero =>
    rw [main_no_fuel] at h
    cases h
  | succ n =>
    rw [e n] at h
    simp only [Option.some.injEq, Prod.mk.injEq] at h
    exact absurd h.2 (by decide)

end HashProbe
